import Mathlib

/-!
Verification of the plan2 day-planner core: block data model, overlap
resolution engine (`src/plan-main-ci/src/lib/blocks.ts`), day-grid painting
(`App.old.tsx`), legacy-grid migration (`storage.ts`), block-to-grid
projection and segment building (`segments.ts` / planner store), resize
clamping, and the snapshot history manager.

Modelling conventions:
- JS numbers holding minutes / rows / columns are modelled as `Int`.
- JS `Math.floor(a / n)` for positive literal `n` is floor division, which on
  `Int` with a positive divisor coincides with `Int.ediv` (Lean's `/`).
  JS `%` agrees with `Int.emod` (Lean's `%`) on the non-negative operands
  that occur here.
- Optional JS object fields are `Option`; a missing key and an `undefined`
  value are both `none`.  Activity ids are non-empty strings in this code
  base, so JS truthiness checks on them are modelled as `Option` presence.
- `generateId()` (timestamp+counter+random, `id.ts`) is modelled as a supply
  `gen : Nat → String` of generated ids consumed in call order.
-/

namespace Plan2

/-- `Layer` from `types.ts`: `"plan" | "execute" | "overlay"`. -/
inductive Layer where
  | plan
  | execute
  | overlay
deriving DecidableEq, Repr

/-- `BlockSource` from `types.ts` (the `"import"` variant is spelled
`importSrc` because `import` is a Lean keyword). -/
inductive BlockSource where
  | drag
  | select
  | manual
  | weekPlan
  | fixedSchedule
  | templateApply
  | importSrc
  | voice
deriving DecidableEq, Repr

/-- `Block` from `types.ts` (the fields the core logic reads/writes;
optional metadata fields such as `title`, `score`, `paintStyle` are carried
unchanged by every spread-copy in the source and are omitted). -/
structure Block where
  id : String
  dateISO : String
  startMin : Int
  endMin : Int
  activityId : String
  layer : Layer
  source : BlockSource
  createdAt : Int
  updatedAt : Int
deriving DecidableEq, Repr

/-- The candidate range argument of `detectOverlap` / `resolveOverlaps`
(`blocks.ts`): `{ startMin, endMin, layer }`. -/
structure Candidate where
  startMin : Int
  endMin : Int
  layer : Layer
deriving DecidableEq, Repr

/-- `createBlock` from `blocks.ts` lines 7-33; the `generateId()` call and
`Date.now()` are passed in explicitly. -/
def createBlock (genId : String) (now : Int) (dateISO : String)
    (startMin endMin : Int) (activityId : String) (layer : Layer)
    (source : Option BlockSource) : Block :=
  { id := genId
    dateISO := dateISO
    startMin := startMin
    endMin := endMin
    activityId := activityId
    layer := layer
    source := source.getD BlockSource.drag
    createdAt := now
    updatedAt := now }

/-- `Activity` from `types.ts`. -/
structure Activity where
  id : String
  name : String
  color : String
deriving DecidableEq, Repr

/-- `getActivityColor` from `blocks.ts` lines 252-257; the JS `|| "#888888"`
fallback also fires on an empty `color` string (falsy). -/
def getActivityColor (activityId : String) (activities : List Activity) :
    String :=
  match activities.find? (fun a => a.id = activityId) with
  | some a => if a.color = "" then "#888888" else a.color
  | none => "#888888"

/-- `detectOverlap` from `blocks.ts` lines 38-50. -/
def detectOverlap (newBlock : Candidate) (existingBlocks : List Block)
    (excludeId : Option String) : List Block :=
  existingBlocks.filter (fun b =>
    b.layer = newBlock.layer ∧ some b.id ≠ excludeId ∧
    newBlock.startMin < b.endMin ∧ newBlock.endMin > b.startMin)

/-- The loop body of `resolveOverlaps` (`blocks.ts` lines 56-106), with the
running `generateId()` supply threaded through `k`: the k-th `generateId()`
call returns `gen k`.  Each `continue`-terminated branch of the source
contributes its pushes followed by the rest of the loop. -/
def resolveOverlapsAux (gen : Nat → String) (k : Nat) (blocks : List Block)
    (newBlock : Candidate) (excludeId : Option String) : List Block :=
  match blocks with
  | [] => []
  | block :: rest =>
    if block.layer ≠ newBlock.layer ∨ some block.id = excludeId then
      block :: resolveOverlapsAux gen k rest newBlock excludeId
    else if newBlock.startMin ≥ block.endMin ∨ newBlock.endMin ≤ block.startMin then
      block :: resolveOverlapsAux gen k rest newBlock excludeId
    else if newBlock.startMin ≤ block.startMin ∧ newBlock.endMin ≥ block.endMin then
      resolveOverlapsAux gen k rest newBlock excludeId
    else if newBlock.startMin > block.startMin ∧ newBlock.endMin ≥ block.endMin then
      { block with endMin := newBlock.startMin }
        :: resolveOverlapsAux gen k rest newBlock excludeId
    else if newBlock.startMin ≤ block.startMin ∧ newBlock.endMin < block.endMin then
      { block with startMin := newBlock.endMin }
        :: resolveOverlapsAux gen k rest newBlock excludeId
    else if newBlock.startMin > block.startMin ∧ newBlock.endMin < block.endMin then
      { block with endMin := newBlock.startMin }
        :: { block with id := gen k, startMin := newBlock.endMin }
        :: resolveOverlapsAux gen (k + 1) rest newBlock excludeId
    else
      resolveOverlapsAux gen k rest newBlock excludeId

/-- `resolveOverlaps` from `blocks.ts` lines 56-106. -/
def resolveOverlaps (gen : Nat → String) (blocks : List Block)
    (newBlock : Candidate) (excludeId : Option String) : List Block :=
  resolveOverlapsAux gen 0 blocks newBlock excludeId

/-- `addBlock` from `blocks.ts` lines 111-114 (insertion through the overlap
resolution engine). -/
def libAddBlock (gen : Nat → String) (blocks : List Block) (newBlock : Block) :
    List Block :=
  resolveOverlaps gen blocks
    ⟨newBlock.startMin, newBlock.endMin, newBlock.layer⟩ none ++ [newBlock]

/-- Number of `generateId()` calls the `resolveOverlaps` loop performs while
processing one existing block (1 exactly in the middle-split branch). -/
def splitsOne (newBlock : Candidate) (excludeId : Option String) (block : Block) :
    Nat :=
  if block.layer ≠ newBlock.layer ∨ some block.id = excludeId then 0
  else if newBlock.startMin ≥ block.endMin ∨ newBlock.endMin ≤ block.startMin then 0
  else if newBlock.startMin ≤ block.startMin ∧ newBlock.endMin ≥ block.endMin then 0
  else if newBlock.startMin > block.startMin ∧ newBlock.endMin ≥ block.endMin then 0
  else if newBlock.startMin ≤ block.startMin ∧ newBlock.endMin < block.endMin then 0
  else if newBlock.startMin > block.startMin ∧ newBlock.endMin < block.endMin then 1
  else 0

/-- Number of `generateId()` calls the loop performs over a whole block list. -/
def countSplits (newBlock : Candidate) (excludeId : Option String) :
    List Block → Nat
  | [] => 0
  | b :: rest => splitsOne newBlock excludeId b + countSplits newBlock excludeId rest

/-- The per-existing-block contribution as the spec §4.1 words it: keep when
other layer / excluded / no time intersection (case 1); drop when the
candidate fully contains `b` (case 2); left remainder ending at
`candidate.startMin` on tail overlap (case 3); right remainder starting at
`candidate.endMin` on head overlap (case 4); otherwise the candidate is
strictly inside `b` and `b` splits into a left remainder keeping `b`'s id and
a right remainder with a freshly generated id (case 5). -/
def specResolveOne (gen : Nat → String) (k : Nat) (newBlock : Candidate)
    (excludeId : Option String) (b : Block) : List Block :=
  if b.layer ≠ newBlock.layer ∨ some b.id = excludeId then [b]
  else if newBlock.endMin ≤ b.startMin ∨ b.endMin ≤ newBlock.startMin then [b]
  else if newBlock.startMin ≤ b.startMin ∧ b.endMin ≤ newBlock.endMin then []
  else if b.startMin < newBlock.startMin ∧ b.endMin ≤ newBlock.endMin then
    [{ b with endMin := newBlock.startMin }]
  else if newBlock.startMin ≤ b.startMin ∧ newBlock.endMin < b.endMin then
    [{ b with startMin := newBlock.endMin }]
  else
    [{ b with endMin := newBlock.startMin },
     { b with id := gen k, startMin := newBlock.endMin }]

/-- The spec-§4.1 algorithm: concatenate the per-block contributions in input
order, threading the fresh-id supply. -/
def specResolveAll (gen : Nat → String) (k : Nat) (blocks : List Block)
    (newBlock : Candidate) (excludeId : Option String) : List Block :=
  match blocks with
  | [] => []
  | b :: rest =>
      specResolveOne gen k newBlock excludeId b
        ++ specResolveAll gen (k + splitsOne newBlock excludeId b) rest newBlock
            excludeId

/-- One loop iteration of `resolveOverlaps` equals the spec's per-block
contribution followed by the rest of the loop (with the id supply advanced by
the split count of the head). -/
lemma resolveOverlapsAux_cons (gen : Nat → String) (k : Nat) (b : Block)
    (rest : List Block) (nb : Candidate) (ex : Option String) :
    resolveOverlapsAux gen k (b :: rest) nb ex
      = specResolveOne gen k nb ex b
          ++ resolveOverlapsAux gen (k + splitsOne nb ex b) rest nb ex := by
  simp only [resolveOverlapsAux, specResolveOne, splitsOne]
  split_ifs <;> simp_all <;> omega

/-- The `resolveOverlaps` loop is compositional over list append, with the
fresh-id supply advanced by the split count of the first part. -/
lemma resolveOverlapsAux_append (gen : Nat → String) (k : Nat)
    (l1 l2 : List Block) (nb : Candidate) (ex : Option String) :
    resolveOverlapsAux gen k (l1 ++ l2) nb ex
      = resolveOverlapsAux gen k l1 nb ex
          ++ resolveOverlapsAux gen (k + countSplits nb ex l1) l2 nb ex := by
  induction l1 generalizing k with
  | nil => simp [resolveOverlapsAux, countSplits]
  | cons b rest ih =>
      simp only [List.cons_append, resolveOverlapsAux_cons, countSplits, ih,
        List.append_assoc]
      ring_nf

/-- C2. `resolveOverlaps` is a total function implementing the five-case
painter's algorithm: it equals the spec-worded per-block case analysis
(`specResolveAll`) on every input — for every existing block `b` it keeps `b`
unchanged when `b` is in another layer, equals `excludeId`, or does not
intersect the candidate; drops `b` when the candidate fully contains it;
keeps a left remainder ending at `candidate.startMin` on tail overlap; keeps
a right remainder starting at `candidate.endMin` on head overlap — and when
the candidate is strictly inside `b`, the output replaces `b` by a left
remainder keeping `b`'s original id and a right remainder carrying the next
freshly generated id, which differs from `b`'s id whenever the generated id
is fresh.  Totality — "it never raises an error" — holds because
`resolveOverlaps` is a total Lean function returning a result list on every
input. -/
theorem resolveOverlaps_five_case_painter :
    (∀ (gen : Nat → String) (blocks : List Block) (nb : Candidate)
        (ex : Option String),
       resolveOverlaps gen blocks nb ex = specResolveAll gen 0 blocks nb ex)
  ∧ (∀ (gen : Nat → String) (k : Nat) (l1 l2 : List Block) (b : Block)
        (nb : Candidate) (ex : Option String),
       b.layer = nb.layer → some b.id ≠ ex →
       b.startMin < nb.startMin → nb.startMin < nb.endMin →
       nb.endMin < b.endMin →
       resolveOverlapsAux gen k (l1 ++ b :: l2) nb ex
         = resolveOverlapsAux gen k l1 nb ex
             ++ [{ b with endMin := nb.startMin },
                 { b with id := gen (k + countSplits nb ex l1),
                          startMin := nb.endMin }]
             ++ resolveOverlapsAux gen (k + countSplits nb ex l1 + 1) l2 nb ex
       ∧ (gen (k + countSplits nb ex l1) ≠ b.id →
           ({ b with id := gen (k + countSplits nb ex l1),
                     startMin := nb.endMin } : Block).id
             ≠ ({ b with endMin := nb.startMin } : Block).id)) := by
  constructor
  · intro gen blocks nb ex
    show resolveOverlapsAux gen 0 blocks nb ex = specResolveAll gen 0 blocks nb ex
    generalize 0 = k
    induction blocks generalizing k with
    | nil => rfl
    | cons b rest ih =>
        rw [resolveOverlapsAux_cons, specResolveAll, ih]
  · intro gen k l1 l2 b nb ex hlayer hex hs hnb he
    have hone : specResolveOne gen (k + countSplits nb ex l1) nb ex b
        = [{ b with endMin := nb.startMin },
           { b with id := gen (k + countSplits nb ex l1),
                    startMin := nb.endMin }] := by
      simp only [specResolveOne]
      split_ifs with h1 h2 h3 h4 h5 <;> first | rfl | (exfalso; simp_all; try omega)
    have hsplit : splitsOne nb ex b = 1 := by
      simp only [splitsOne]
      split_ifs with h1 h2 h3 h4 h5 h6 <;> first | rfl | (exfalso; simp_all; try omega)
    refine ⟨?_, ?_⟩
    · rw [resolveOverlapsAux_append, resolveOverlapsAux_cons, hone, hsplit]
      simp [List.append_assoc]
    · intro hfresh
      simpa using hfresh

/-- C2 witness: inserting the candidate `[10, 20)` (execute layer) strictly
inside the block `X = [0, 60)` splits it into `[0, 10)` keeping id `X` and
`[20, 60)` with the freshly generated id `g0 ≠ X`; the whole run also equals
the spec-worded algorithm. -/
theorem resolveOverlaps_five_case_painter_witness :
    resolveOverlaps (fun j => "g" ++ toString j)
        [⟨"X", "2025-01-01", 0, 60, "act", Layer.execute, BlockSource.drag, 0, 0⟩]
        ⟨10, 20, Layer.execute⟩ none
      = [⟨"X", "2025-01-01", 0, 10, "act", Layer.execute, BlockSource.drag, 0, 0⟩,
         ⟨"g0", "2025-01-01", 20, 60, "act", Layer.execute, BlockSource.drag, 0, 0⟩]
    ∧ ("g0" : String) ≠ "X"
    ∧ resolveOverlaps (fun j => "g" ++ toString j)
        [⟨"X", "2025-01-01", 0, 60, "act", Layer.execute, BlockSource.drag, 0, 0⟩]
        ⟨10, 20, Layer.execute⟩ none
      = specResolveAll (fun j => "g" ++ toString j) 0
        [⟨"X", "2025-01-01", 0, 60, "act", Layer.execute, BlockSource.drag, 0, 0⟩]
        ⟨10, 20, Layer.execute⟩ none := by
  have h2 := resolveOverlaps_five_case_painter.2 (fun j => "g" ++ toString j) 0
    [] []
    ⟨"X", "2025-01-01", 0, 60, "act", Layer.execute, BlockSource.drag, 0, 0⟩
    ⟨10, 20, Layer.execute⟩ none rfl (by decide) (by decide) (by decide) (by decide)
  refine ⟨h2.1.trans (by decide), by decide, resolveOverlaps_five_case_painter.1 _ _ _ _⟩

/-- C10. Half-open ranges: an existing block in the candidate's layer whose
range merely touches the candidate (`b.endMin = candidate.startMin` or
`b.startMin = candidate.endMin`) is not reported by `detectOverlap` and is
kept completely unchanged, in place, by `resolveOverlaps`. -/
theorem touching_block_not_conflict_and_unchanged :
    ∀ (gen : Nat → String) (k : Nat) (l1 l2 : List Block) (b : Block)
      (nb : Candidate) (ex : Option String),
      b.layer = nb.layer →
      b.endMin = nb.startMin ∨ b.startMin = nb.endMin →
      b ∉ detectOverlap nb (l1 ++ b :: l2) ex
      ∧ resolveOverlapsAux gen k (l1 ++ b :: l2) nb ex
          = resolveOverlapsAux gen k l1 nb ex
              ++ b :: resolveOverlapsAux gen (k + countSplits nb ex l1) l2 nb ex := by
  intro gen k l1 l2 b nb ex hlayer htouch
  have hone : specResolveOne gen (k + countSplits nb ex l1) nb ex b = [b] := by
    simp only [specResolveOne]
    split_ifs with h1 h2 <;> first | rfl | (exfalso; simp_all; try omega)
  have hsplit : splitsOne nb ex b = 0 := by
    simp only [splitsOne]
    split_ifs <;> first | rfl | (exfalso; simp_all; try omega)
  refine ⟨?_, ?_⟩
  · simp only [detectOverlap, List.mem_filter, decide_eq_true_eq, not_and]
    intro _ _ _
    omega
  · rw [resolveOverlapsAux_append, resolveOverlapsAux_cons, hone, hsplit]
    simp

/-- C10 witness: the block `[0, 30)` touches the candidate `[30, 40)` on the
execute layer; it is not reported as a conflict and survives
`resolveOverlaps` unchanged. -/
theorem touching_block_witness :
    (⟨"b", "2025-01-01", 0, 30, "act", Layer.execute, BlockSource.drag, 0, 0⟩ : Block)
        ∉ detectOverlap ⟨30, 40, Layer.execute⟩
          [⟨"b", "2025-01-01", 0, 30, "act", Layer.execute, BlockSource.drag, 0, 0⟩]
          none
    ∧ resolveOverlaps (fun j => "g" ++ toString j)
        [⟨"b", "2025-01-01", 0, 30, "act", Layer.execute, BlockSource.drag, 0, 0⟩]
        ⟨30, 40, Layer.execute⟩ none
      = [⟨"b", "2025-01-01", 0, 30, "act", Layer.execute, BlockSource.drag, 0, 0⟩] := by
  have h := touching_block_not_conflict_and_unchanged (fun j => "g" ++ toString j) 0
    [] []
    ⟨"b", "2025-01-01", 0, 30, "act", Layer.execute, BlockSource.drag, 0, 0⟩
    ⟨30, 40, Layer.execute⟩ none rfl (Or.inl rfl)
  exact ⟨h.1, h.2.trans (by decide)⟩

/-! ## Planner store (zustand, `usePlannerStore`) and the drag-paint path -/

/-- `addBlock` of the planner store (`usePlannerStore`, part_004 lines
242-248): pushes the block onto `blocks[dateISO]` (creating the entry if
missing) with NO overlap resolution.  The store maps `dateISO` to a block
list; a missing key is the empty list. -/
def storeAddBlock (blocks : String → List Block) (b : Block) :
    String → List Block :=
  fun d => if d = b.dateISO then blocks d ++ [b] else blocks d

/-- The PAINT branch of `useDragHandler.handlePointerEnter`
(`useDragHandler.ts` lines 75-89): entering a not-yet-visited cell during a
paint drag creates a 10-minute execute block
`[row*60+col*10, row*60+col*10+10)` for the current brush via `createBlock`
and inserts it with the STORE's `addBlock` (not `lib/blocks.addBlock`). -/
def paintEnterExecute (blocks : String → List Block) (dateISO brush genId : String)
    (now row col : Int) : String → List Block :=
  storeAddBlock blocks
    (createBlock genId now dateISO (row * 60 + col * 10)
      (row * 60 + col * 10 + 10) brush Layer.execute (some BlockSource.drag))

/-- The invariant claimed by C1: no two stored blocks with the same
(date, layer) have overlapping `[startMin, endMin)` ranges. -/
def noOverlappingBlocks (blocks : List Block) : Prop :=
  List.Pairwise
    (fun a b => a.dateISO = b.dateISO → a.layer = b.layer →
      a.endMin ≤ b.startMin ∨ b.endMin ≤ a.startMin)
    blocks

/-- C1 (code bug): painting the same cell (row 0, col 0) in two separate drag
gestures — `activeCells` is reset between gestures, so the second drag paints
the cell again — pushes two execute blocks `[0, 10)` for the same date
through the store's `addBlock`, which performs no overlap resolution, leaving
the store with two overlapping blocks in the same (date, layer); the engine's
own `detectOverlap` reports the conflict that was never resolved. -/
theorem store_addBlock_paint_violates_nonoverlap :
    ¬ noOverlappingBlocks
        (paintEnterExecute
          (paintEnterExecute (fun _ => []) "2025-01-01" "act" "id1" 100 0 0)
          "2025-01-01" "act" "id2" 200 0 0 "2025-01-01")
    ∧ detectOverlap ⟨0, 10, Layer.execute⟩
        (paintEnterExecute (fun _ => []) "2025-01-01" "act" "id1" 100 0 0
          "2025-01-01") none ≠ [] := by
  have hlist : paintEnterExecute
      (paintEnterExecute (fun _ => []) "2025-01-01" "act" "id1" 100 0 0)
      "2025-01-01" "act" "id2" 200 0 0 "2025-01-01"
      = [⟨"id1", "2025-01-01", 0, 10, "act", Layer.execute, BlockSource.drag, 100, 100⟩,
         ⟨"id2", "2025-01-01", 0, 10, "act", Layer.execute, BlockSource.drag, 200, 200⟩] := by
    decide
  constructor
  · intro h
    simp only [noOverlappingBlocks, hlist] at h
    have h12 := (List.pairwise_cons.mp h).1 _ (List.mem_singleton.mpr rfl) rfl rfl
    simp only at h12
    omega
  · decide

/-! ## The legacy day grid (`App.old.tsx`): cells, paint, erase -/

/-- The `indicator` field of a legacy cell (`types.ts` `CellData`). -/
structure Indicator where
  label : String
  timeText : String
deriving DecidableEq, Repr

/-- A legacy memo item; only its presence matters to the grid operations
modelled here, so it is reduced to its identifying fields. -/
structure MemoItem where
  id : String
  content : String
deriving DecidableEq, Repr

/-- `CellData` from `types.ts`: the per-cell record of the legacy day grid.
A JS key that is absent is `none`; `Object.keys(cell).length === 0` is
`cellIsEmpty`. -/
structure CellData where
  execute : Option String := none
  overlay : Option String := none
  indicator : Option Indicator := none
  memos : Option (List MemoItem) := none
deriving DecidableEq, Repr

/-- `Object.keys(cell).length === 0` for a `CellData`. -/
def cellIsEmpty (c : CellData) : Bool :=
  c.execute.isNone && c.overlay.isNone && c.indicator.isNone && c.memos.isNone

/-- The active date's `DayGrid` (`Record<string, CellData>`): cell id to
cell, `none` for an absent key. -/
def DayGrid := String → Option CellData

/-- `updateCell` from `App.old.tsx` lines 510-523: apply `updater` to the
current cell; if the result is absent or has no keys, delete the cell,
otherwise store it. -/
def updateCell (grid : DayGrid) (cellId : String)
    (updater : Option CellData → Option CellData) : DayGrid :=
  fun cid =>
    if cid = cellId then
      match updater (grid cellId) with
      | none => none
      | some c => if cellIsEmpty c then none else some c
    else grid cid

/-- `paintCell` from `App.old.tsx` lines 525-536: set the empty `execute`
slot first; otherwise, if the incoming brush differs from `execute`,
overwrite the `overlay` slot. -/
def paintCell (grid : DayGrid) (cellId : String) (brush : String) : DayGrid :=
  updateCell grid cellId (fun cell =>
    let next := cell.getD {}
    if next.execute = none then some { next with execute := some brush }
    else if next.execute ≠ some brush then some { next with overlay := some brush }
    else some next)

/-- `eraseCell` from `App.old.tsx` lines 584-592: delete the `execute` and
`overlay` keys of an existing cell (an absent cell stays absent). -/
def eraseCell (grid : DayGrid) (cellId : String) : DayGrid :=
  updateCell grid cellId (fun cell =>
    match cell with
    | none => none
    | some c => some { c with execute := none, overlay := none })

/-- C3. Painting A, then B, then C (all painting with distinct activities,
B ≠ A and C ≠ A) onto a cell whose execute slot is empty yields
`execute = A, overlay = C`: the first paint fills the empty execute slot and
each later differing paint overwrites the overlay slot (last write wins, so B
is evicted without trace). -/
theorem paint_overlay_last_write_wins (grid : DayGrid) (cellId A B C : String)
    (hempty : (grid cellId).bind (fun c => c.execute) = none)
    (hBA : B ≠ A) (hCA : C ≠ A) :
    ((paintCell (paintCell (paintCell grid cellId A) cellId B) cellId C) cellId).bind
        (fun c => c.execute) = some A
    ∧ ((paintCell (paintCell (paintCell grid cellId A) cellId B) cellId C) cellId).bind
        (fun c => c.overlay) = some C := by
  have hBA' : some A ≠ some B := by simpa [eq_comm] using hBA
  have hCA' : some A ≠ some C := by simpa [eq_comm] using hCA
  cases h : grid cellId with
  | none =>
      constructor <;>
        simp [paintCell, updateCell, h, cellIsEmpty, hBA', hCA', Option.getD]
  | some c =>
      have hc : c.execute = none := by
        simpa [h] using hempty
      constructor <;>
        simp [paintCell, updateCell, h, hc, cellIsEmpty, hBA', hCA', Option.getD]

/-- C3 witness: painting "a", "b", "c" on an absent cell of the empty grid
gives `execute = a`, `overlay = c`. -/
theorem paint_overlay_last_write_wins_witness :
    ((paintCell (paintCell (paintCell (fun _ => none) "d|06|0" "a") "d|06|0" "b")
        "d|06|0" "c") "d|06|0").bind (fun c => c.execute) = some "a"
    ∧ ((paintCell (paintCell (paintCell (fun _ => none) "d|06|0" "a") "d|06|0" "b")
        "d|06|0" "c") "d|06|0").bind (fun c => c.overlay) = some "c" :=
  paint_overlay_last_write_wins (fun _ => none) "d|06|0" "a" "b" "c" rfl
    (by decide) (by decide)

/-- C4. Painting activity A onto a cell whose `execute` slot already equals A
leaves the whole day-grid store unchanged (value equality): no overlay write,
no other change to any cell. -/
theorem paint_same_execute_idempotent (grid : DayGrid) (cellId A : String)
    (cell : CellData) (h : grid cellId = some cell)
    (hex : cell.execute = some A) :
    paintCell grid cellId A = grid := by
  funext cid
  by_cases hc : cid = cellId
  · subst hc
    simp [paintCell, updateCell, h, hex, cellIsEmpty, Option.getD]
  · simp [paintCell, updateCell, hc]

/-- C4 witness: repainting "a" on a cell already executing "a" (with an
overlay present) returns the very same grid. -/
theorem paint_same_execute_idempotent_witness :
    paintCell
        (fun cid => if cid = "d|06|0"
          then some { execute := some "a", overlay := some "b" } else none)
        "d|06|0" "a"
      = (fun cid => if cid = "d|06|0"
          then some { execute := some "a", overlay := some "b" } else none) :=
  paint_same_execute_idempotent _ "d|06|0" "a"
    { execute := some "a", overlay := some "b" } (by decide) rfl

/-- C5 counterexample: erasing a cell that holds `execute = "a"` and an
indicator leaves the indicator in place — `eraseCell` deletes only the
`execute` and `overlay` keys, contradicting the claim that the indicator is
cleared too. -/
theorem erase_keeps_indicator_counterexample :
    ((eraseCell
        (fun cid => if cid = "d|07|0"
          then some { execute := some "a",
                      indicator := some ⟨"wake", "07:00"⟩ } else none)
        "d|07|0") "d|07|0").bind (fun c => c.indicator)
      = some ⟨"wake", "07:00"⟩ := by
  decide

/-- C5 (amended): erasing a cell clears the `execute` and `overlay` slots but
PRESERVES the cell's indicator (and memos); a cell with no remaining data
after the erase is removed from the store entirely, and no other cell is
affected. -/
theorem erase_clears_slots_keeps_indicator (grid : DayGrid) (cellId : String) :
    ((eraseCell grid cellId) cellId).bind (fun c => c.execute) = none
    ∧ ((eraseCell grid cellId) cellId).bind (fun c => c.overlay) = none
    ∧ ((eraseCell grid cellId) cellId).bind (fun c => c.indicator)
        = (grid cellId).bind (fun c => c.indicator)
    ∧ ((eraseCell grid cellId) cellId).bind (fun c => c.memos)
        = (grid cellId).bind (fun c => c.memos)
    ∧ (∀ c, grid cellId = some c → c.indicator = none → c.memos = none →
        (eraseCell grid cellId) cellId = none)
    ∧ (∀ cid, cid ≠ cellId → (eraseCell grid cellId) cid = grid cid) := by
  cases h : grid cellId with
  | none =>
      refine ⟨?_, ?_, ?_, ?_, ?_, ?_⟩ <;>
        simp_all [eraseCell, updateCell, cellIsEmpty]
  | some c =>
      cases hi : c.indicator <;> cases hm : c.memos <;>
        refine ⟨?_, ?_, ?_, ?_, ?_, ?_⟩ <;>
          simp_all [eraseCell, updateCell, cellIsEmpty]

/-- C5 witness: erasing a painted cell with no indicator and no memos removes
the cell from the store; a neighbouring cell is untouched. -/
theorem erase_clears_slots_keeps_indicator_witness :
    (eraseCell
        (fun cid => if cid = "d|07|0"
          then some { execute := some "a", overlay := some "b" } else none)
        "d|07|0") "d|07|0" = none
    ∧ (eraseCell
        (fun cid => if cid = "d|07|0"
          then some { execute := some "a", overlay := some "b" } else none)
        "d|07|0") "d|07|1" = none := by
  have h := erase_clears_slots_keeps_indicator
    (fun cid => if cid = "d|07|0"
      then some { execute := some "a", overlay := some "b" } else none)
    "d|07|0"
  refine ⟨h.2.2.2.2.1 ⟨some "a", some "b", none, none⟩ (by decide) rfl rfl, ?_⟩
  have h2 := h.2.2.2.2.2 "d|07|1" (by decide)
  rw [h2]
  decide

/-! ## History manager (`usePlannerStore` part_004 lines 311-344)

The store's undo/redo machinery manipulates `state.blocks` only through deep
copies, so it is modelled generically over the snapshot payload type `α`
(instantiated with block collections); JSON deep copy is the identity on
values. -/

/-- The history-carrying part of the planner store. -/
structure HistoryState (α : Type) where
  blocks : α
  past : List α
  future : List α
deriving DecidableEq, Repr

/-- `pushHistory` (part_004 lines 311-320): push a snapshot of `blocks` onto
`past`, clear the redo stack, and `shift()` the oldest entry when the depth
exceeds 50. -/
def pushHistory {α : Type} (s : HistoryState α) : HistoryState α :=
  let p := s.past ++ [s.blocks]
  { s with past := if p.length > 50 then p.tail else p, future := [] }

/-- `undo` (part_004 lines 322-332): no-op on empty `past`; otherwise move
the current blocks to the front of `future` and restore the popped snapshot. -/
def undo {α : Type} (s : HistoryState α) : HistoryState α :=
  match s.past.getLast? with
  | none => s
  | some prev =>
      { blocks := prev, past := s.past.dropLast, future := s.blocks :: s.future }

/-- `redo` (part_004 lines 334-344): no-op on empty `future`; otherwise push
the current blocks onto `past` and restore the shifted snapshot. -/
def redo {α : Type} (s : HistoryState α) : HistoryState α :=
  match s.future with
  | [] => s
  | next :: rest => { blocks := next, past := s.past ++ [s.blocks], future := rest }

/-- `n` successive `undo()` calls. -/
def undoN {α : Type} : Nat → HistoryState α → HistoryState α
  | 0, s => s
  | n + 1, s => undoN n (undo s)

/-- A sequence of mutations, each preceded by its `pushHistory()` snapshot
(the pattern of every mutating gesture: `pushHistory(); mutate(blocks)`). -/
def applyMutations {α : Type} (ms : List (α → α)) (s : HistoryState α) :
    HistoryState α :=
  ms.foldl (fun s m =>
    let s' := pushHistory s
    { s' with blocks := m s'.blocks }) s

lemma undoN_succ {α : Type} (n : Nat) (s : HistoryState α) :
    undoN (n + 1) s = undo (undoN n s) := by
  induction n generalizing s with
  | zero => rfl
  | succ n ih => rw [undoN, ih, undoN]

/-- As long as the history cap is never hit, `n` snapshot-then-mutate steps
followed by `n` undos restore both the block collection and the prior undo
stack. -/
lemma undoN_applyMutations {α : Type} (ms : List (α → α)) (s : HistoryState α)
    (hdepth : s.past.length + ms.length ≤ 50) :
    (undoN ms.length (applyMutations ms s)).blocks = s.blocks
    ∧ (undoN ms.length (applyMutations ms s)).past = s.past := by
  induction ms generalizing s with
  | nil => exact ⟨rfl, rfl⟩
  | cons m rest ih =>
      have hlen : ¬ (s.past ++ [s.blocks]).length > 50 := by
        simp only [List.length_append, List.length_singleton]
        simp only [List.length_cons] at hdepth
        omega
      have hlen' : ¬ (50 < s.past.length + 1) := by
        simp only [List.length_append, List.length_singleton] at hlen
        omega
      have hstep : applyMutations (m :: rest) s
          = applyMutations rest
              ⟨m s.blocks, s.past ++ [s.blocks], []⟩ := by
        simp [applyMutations, pushHistory, hlen']
      have hdepth' :
          (⟨m s.blocks, s.past ++ [s.blocks], []⟩ : HistoryState α).past.length
            + rest.length ≤ 50 := by
        simp only [List.length_append, List.length_singleton]
        simp only [List.length_cons] at hdepth
        omega
      have ihr := ih ⟨m s.blocks, s.past ++ [s.blocks], []⟩ hdepth'
      rw [List.length_cons, hstep, undoN_succ]
      rw [undo.eq_1]
      rw [ihr.2]
      rw [List.getLast?_concat]
      simp [List.dropLast_concat]

/-- C7 (amended). For every N ≤ 50 (the store's history cap; `pushHistory`
evicts the oldest snapshot beyond depth 50): pushing N snapshots, each
immediately before a mutation, starting from an empty history, and then
performing N undos restores the block collection to equality with the
original; a redo performed after an effective undo with no intervening new
mutation restores the undone state exactly; and any new `pushHistory` clears
the redo stack. -/
theorem history_undo_redo_round_trip :
    (∀ (α : Type) (ms : List (α → α)) (s : HistoryState α),
       s.past = [] → ms.length ≤ 50 →
       (undoN ms.length (applyMutations ms s)).blocks = s.blocks)
  ∧ (∀ (α : Type) (s : HistoryState α), s.past ≠ [] → redo (undo s) = s)
  ∧ (∀ (α : Type) (s : HistoryState α), (pushHistory s).future = []) := by
  refine ⟨?_, ?_, ?_⟩
  · intro α ms s hpast hlen
    exact (undoN_applyMutations ms s (by simp [hpast]; omega)).1
  · intro α s hpast
    obtain ⟨l, x, hlx⟩ : ∃ l x, s.past = l ++ [x] := by
      rcases List.eq_nil_or_concat s.past with h | ⟨l, x, h⟩
      · exact absurd h hpast
      · exact ⟨l, x, by simpa using h⟩
    cases s with
    | mk blocks past future =>
        simp only at hlx
        subst hlx
        simp [undo, redo, List.getLast?_concat, List.dropLast_concat]
  · intro α s
    rfl

/-- C7 witness: two snapshot-then-mutate steps on a list store followed by
two undos restore the empty original; redo after undo restores the undone
state; push clears the redo stack. -/
theorem history_undo_redo_round_trip_witness :
    (undoN 2 (applyMutations
        [fun l => 1 :: l, fun l => 2 :: l]
        (⟨[], [], []⟩ : HistoryState (List Nat)))).blocks = []
    ∧ redo (undo (⟨[2], [[1]], []⟩ : HistoryState (List Nat))) = ⟨[2], [[1]], []⟩
    ∧ (pushHistory (⟨[2], [[1]], [[3]]⟩ : HistoryState (List Nat))).future = [] :=
  ⟨history_undo_redo_round_trip.1 (List Nat)
      [fun l => 1 :: l, fun l => 2 :: l] ⟨[], [], []⟩ rfl (by decide),
   history_undo_redo_round_trip.2.1 (List Nat) ⟨[2], [[1]], []⟩ (by decide),
   history_undo_redo_round_trip.2.2 (List Nat) ⟨[2], [[1]], [[3]]⟩⟩

/-- The 51 mutations of the C7 counterexample: step k prepends `k`. -/
def histMuts : List (List Nat → List Nat) :=
  (List.range 51).map (fun k l => k :: l)

set_option maxRecDepth 40000 in
/-- C7 counterexample: with N = 51 the claim "N snapshots then N undos
restores the original" fails — `pushHistory` caps the undo stack at depth 50
and evicts the oldest snapshot, so 51 mutations followed by 51 undos leave
the state after the first mutation (`[0]`), not the original empty
collection. -/
theorem history_51_undos_do_not_restore :
    (undoN 51 (applyMutations histMuts
        (⟨[], [], []⟩ : HistoryState (List Nat)))).blocks = [0]
    ∧ ([0] : List Nat) ≠ [] := by
  constructor
  · decide
  · decide

/-! ## Resize and fine resize (`App.old.tsx` lines 1277-1353) -/

/-- `SelectedSeg` (`App.old.tsx`): the selected segment being resized. -/
structure SelectedSeg where
  row : Int
  startCol : Int
  endCol : Int
  layer : Layer
  activityId : String
deriving DecidableEq, Repr

/-- The `side` argument of `handleResize` / `handleFineResizeApply`
(`"start" | "end"`; `end` is a Lean keyword, hence the suffixed names). -/
inductive ResizeSide where
  | startSide
  | endSide
deriving DecidableEq, Repr

/-- `FineBounds` (minute-precision bounds stored per segment signature). -/
structure FineBounds where
  startMinute : Int
  endMinute : Int
deriving DecidableEq, Repr

/-- `defaultFineBounds` from `App.old.tsx` lines 63-65. -/
def defaultFineBounds (seg : SelectedSeg) : FineBounds :=
  ⟨seg.startCol * 10, (seg.endCol + 1) * 10⟩

/-- `snap10` from `App.old.tsx` line 105: `Math.round(min / 10) * 10`
(round half toward +infinity). -/
def snap10 (m : Int) : Int := ((m + 5) / 10) * 10

/-- The column-clamping computation of `handleResize` (`App.old.tsx` lines
1284-1288): `nextStart`/`nextEnd` from the dragged column and the resize
base, then `clampedStart = max(0, min(5, nextStart))` and
`clampedEnd = max(clampedStart, min(5, nextEnd))`. -/
def resizeClampedCols (side : ResizeSide) (col : Int) (base : SelectedSeg) :
    Int × Int :=
  let nextStart := if side = ResizeSide.startSide then min col base.endCol
                   else base.startCol
  let nextEnd := if side = ResizeSide.endSide then max col base.startCol
                 else base.endCol
  let clampedStart := max 0 (min 5 nextStart)
  let clampedEnd := max clampedStart (min 5 nextEnd)
  (clampedStart, clampedEnd)

/-- The `FineBounds` entry `handleResize` stores for the resized segment
(`App.old.tsx` line 1323). -/
def resizeFineBoundsWrite (side : ResizeSide) (col : Int) (base : SelectedSeg) :
    FineBounds :=
  ⟨(resizeClampedCols side col base).1 * 10,
   ((resizeClampedCols side col base).2 + 1) * 10⟩

/-- The `mode` argument of `handleFineResizeApply`: commit the exact minute
or snap it to the nearest 10-minute boundary first. -/
inductive FineMode where
  | minute
  | snap
deriving DecidableEq, Repr

/-- `handleFineResizeApply` from `App.old.tsx` lines 1331-1353: clamp the
applied minute into the segment's coarse window, then correct any
`endMinute <= startMinute` outcome to a minimum 1-minute span. -/
def handleFineResizeApply (side : ResizeSide) (minute : Int) (mode : FineMode)
    (base : SelectedSeg) (bounds : FineBounds) : FineBounds :=
  let snapped := if mode = FineMode.snap then snap10 minute else minute
  let minStart := base.startCol * 10
  let maxEnd := (base.endCol + 1) * 10
  let nextStart := if side = ResizeSide.startSide
                   then min (max minStart snapped) (maxEnd - 1)
                   else bounds.startMinute
  let nextEnd := if side = ResizeSide.endSide
                 then max (min maxEnd snapped) (minStart + 1)
                 else bounds.endMinute
  if nextEnd ≤ nextStart then ⟨nextStart, min maxEnd (nextStart + 1)⟩
  else ⟨nextStart, nextEnd⟩

/-- C8. Every resize commit yields a valid span with `endMin > startMin`:
the coarse clamping always produces `0 ≤ clampedStart ≤ clampedEnd ≤ 5`, so
the stored coarse span covers at least 10 minutes; and a fine-resize apply on
bounds lying inside the segment's coarse window (the `FineBounds` data-model
invariant, established by `defaultFineBounds` and by the coarse-resize write)
stores bounds with `startCol*10 ≤ startMinute < endMinute ≤ (endCol+1)*10`,
correcting a would-be `endMin ≤ startMin` to a minimum 1-minute span instead
of rejecting it. -/
theorem resize_commits_valid_span :
    (∀ (side : ResizeSide) (col : Int) (base : SelectedSeg),
       0 ≤ (resizeClampedCols side col base).1
       ∧ (resizeClampedCols side col base).1 ≤ (resizeClampedCols side col base).2
       ∧ (resizeClampedCols side col base).2 ≤ 5
       ∧ (resizeFineBoundsWrite side col base).startMinute + 10
           ≤ (resizeFineBoundsWrite side col base).endMinute)
  ∧ (∀ (side : ResizeSide) (minute : Int) (mode : FineMode)
       (base : SelectedSeg) (bounds : FineBounds),
       base.startCol ≤ base.endCol →
       base.startCol * 10 ≤ bounds.startMinute →
       bounds.startMinute ≤ (base.endCol + 1) * 10 - 1 →
       bounds.endMinute ≤ (base.endCol + 1) * 10 →
       base.startCol * 10
           ≤ (handleFineResizeApply side minute mode base bounds).startMinute
       ∧ (handleFineResizeApply side minute mode base bounds).startMinute
           < (handleFineResizeApply side minute mode base bounds).endMinute
       ∧ (handleFineResizeApply side minute mode base bounds).endMinute
           ≤ (base.endCol + 1) * 10) := by
  constructor
  · intro side col base
    simp only [resizeClampedCols, resizeFineBoundsWrite]
    cases side <;> simp <;> omega
  · intro side minute mode base bounds h1 h2 h3 h4
    simp only [handleFineResizeApply, snap10]
    cases side <;> cases mode <;>
      simp only [reduceCtorEq, if_true, if_false, reduceIte] <;>
        split_ifs <;> refine ⟨?_, ?_, ?_⟩ <;> simp <;> omega

/-- C8 witness: dragging the start handle to column -3 of a [2,4] segment
clamps to columns [0,4], and applying a fine end minute of 9999 in snap mode
to the default bounds of that segment stores the corrected span [20, 50). -/
theorem resize_commits_valid_span_witness :
    (0 : Int) ≤ (resizeClampedCols ResizeSide.startSide (-3)
        ⟨0, 2, 4, Layer.execute, "a"⟩).1
    ∧ resizeClampedCols ResizeSide.startSide (-3)
        ⟨0, 2, 4, Layer.execute, "a"⟩ = (0, 4)
    ∧ handleFineResizeApply ResizeSide.endSide 9999 FineMode.snap
        ⟨0, 2, 4, Layer.execute, "a"⟩
        (defaultFineBounds ⟨0, 2, 4, Layer.execute, "a"⟩) = ⟨20, 50⟩
    ∧ (handleFineResizeApply ResizeSide.endSide 9999 FineMode.snap
        ⟨0, 2, 4, Layer.execute, "a"⟩
        (defaultFineBounds ⟨0, 2, 4, Layer.execute, "a"⟩)).startMinute
      < (handleFineResizeApply ResizeSide.endSide 9999 FineMode.snap
        ⟨0, 2, 4, Layer.execute, "a"⟩
        (defaultFineBounds ⟨0, 2, 4, Layer.execute, "a"⟩)).endMinute :=
  ⟨(resize_commits_valid_span.1 ResizeSide.startSide (-3)
      ⟨0, 2, 4, Layer.execute, "a"⟩).1,
   by decide, by decide,
   (resize_commits_valid_span.2 ResizeSide.endSide 9999 FineMode.snap
      ⟨0, 2, 4, Layer.execute, "a"⟩
      (defaultFineBounds ⟨0, 2, 4, Layer.execute, "a"⟩)
      (by decide) (by decide) (by decide) (by decide)).2.1⟩

/-! ## Segment building (part_004 `buildSegmentsFromBlocks`) and rendering -/

/-- `Segment` from `types.ts` (rows/columns as JS numbers). -/
structure Segment where
  row : Int
  startCol : Int
  endCol : Int
  activityId : String
  layer : Layer
  blockId : Option String
deriving DecidableEq, Repr

/-- The `while (currentMin < block.endMin)` loop of `buildSegmentsFromBlocks`
(part_004 lines 22-48), structurally recursive on a fuel that bounds the
iteration count: each iteration jumps `currentMin` to the next hour boundary
`hourEnd ≥ currentMin + 1`, so `(endMin - startMin).toNat` iterations always
suffice and the fuel never runs out before the loop condition fails. -/
def processBlockLoop (fuel : Nat) (b : Block) (layer : Layer) (startHour : Int)
    (currentMin : Int) (acc : List Segment) : List Segment :=
  match fuel with
  | 0 => acc
  | fuel + 1 =>
    if currentMin < b.endMin then
      let hour := currentMin / 60
      let row := (hour - startHour + 24) % 24
      let hourStart := hour * 60
      let hourEnd := hourStart + 60
      let segmentStart := currentMin
      let segmentEnd := min b.endMin hourEnd
      let startCol := (segmentStart - hourStart) / 10
      let endCol := max 0 ((segmentEnd - hourStart + 9) / 10 - 1)
      let acc' :=
        if startCol ≤ 5 ∧ endCol ≥ 0 then
          acc ++ [⟨row, max 0 startCol, min 5 endCol, b.activityId, layer,
                   some b.id⟩]
        else acc
      processBlockLoop fuel b layer startHour hourEnd acc'
    else acc

/-- Per-block segment generation of `buildSegmentsFromBlocks`. -/
def processBlock (b : Block) (layer : Layer) (startHour : Int) : List Segment :=
  processBlockLoop (b.endMin - b.startMin).toNat b layer startHour b.startMin []

/-- `buildSegmentsFromBlocks` from part_004 lines 8-57: split the blocks by
layer and emit the per-block hour-row segments in plan, execute, overlay
order. -/
def buildSegmentsFromBlocks (blocks : List Block) (startHour : Int) :
    List Segment :=
  ((blocks.filter (fun b => b.layer = Layer.plan)).flatMap
      (fun b => processBlock b Layer.plan startHour))
    ++ ((blocks.filter (fun b => b.layer = Layer.execute)).flatMap
      (fun b => processBlock b Layer.execute startHour))
    ++ ((blocks.filter (fun b => b.layer = Layer.overlay)).flatMap
      (fun b => processBlock b Layer.overlay startHour))

/-- The activity-resolution gate every rendering path applies to a segment
(`DayTimeline` part_001 lines 127-129 / 159-161, `App.old.tsx`
`if (!a) return null` at 3488, 3616, ...): a segment whose `activityId`
resolves to no known activity is skipped. -/
def visibleSegments (activities : List Activity) (segs : List Segment) :
    List Segment :=
  segs.filter (fun s => (activities.find? (fun a => a.id = s.activityId)).isSome)

/-- C9 counterexample: `buildSegmentsFromBlocks` DOES produce a segment for a
block whose `activityId` ("ghost") resolves to no known activity — the
compositor itself performs no activity lookup, contradicting the claim that
it produces no segment for such a block. -/
theorem dangling_block_gets_segment_counterexample :
    buildSegmentsFromBlocks
        [⟨"b1", "2025-01-01", 0, 10, "ghost", Layer.execute,
          BlockSource.drag, 0, 0⟩] 0
      = [⟨0, 0, 0, "ghost", Layer.execute, some "b1"⟩]
    ∧ (∀ a ∈ ([] : List Activity), a.id ≠ "ghost") := by
  exact ⟨by decide, by simp⟩

/-- C9 (amended). A block whose `activityId` does not resolve to a known
activity still gets segments from the compositor, but every rendering path
filters its segments out through the activity lookup, so the block is
invisible: no visible segment carries the unresolved activity id (and every
segment of a block carries that block's activity id), the block list itself
is never modified by segment building, and the colour lookup falls back to
"#888888" instead of raising. -/
theorem dangling_activity_block_invisible :
    ∀ (blocks : List Block) (startHour : Int) (activities : List Activity)
      (aid : String),
      (∀ a ∈ activities, a.id ≠ aid) →
      (visibleSegments activities
          (buildSegmentsFromBlocks blocks startHour)).filter
          (fun s => s.activityId = aid) = []
      ∧ (∀ (b : Block) (layer : Layer) (sh : Int),
          ∀ s ∈ processBlock b layer sh, s.activityId = b.activityId)
      ∧ getActivityColor aid activities = "#888888" := by
  intro blocks startHour activities aid hdangling
  refine ⟨?_, ?_, ?_⟩
  · rw [List.filter_eq_nil_iff]
    intro s hs
    simp only [visibleSegments, List.mem_filter] at hs
    obtain ⟨-, hfind⟩ := hs
    simp only [decide_eq_true_eq]
    intro hsa
    obtain ⟨a, ha⟩ := Option.isSome_iff_exists.mp hfind
    have hmem := List.mem_of_find?_eq_some ha
    have heq : a.id = s.activityId := by
      have := List.find?_some ha
      simpa using this
    exact hdangling a hmem (heq.trans hsa)
  · intro b layer sh s hs
    have : ∀ (fuel : Nat) (cur : Int) (acc : List Segment),
        (∀ t ∈ acc, t.activityId = b.activityId) →
        ∀ t ∈ processBlockLoop fuel b layer sh cur acc,
          t.activityId = b.activityId := by
      intro fuel
      induction fuel with
      | zero => intro cur acc hacc t ht; exact hacc t ht
      | succ n ih =>
          intro cur acc hacc t ht
          rw [processBlockLoop] at ht
          split_ifs at ht with h1
          · refine ih _ _ ?_ t ht
            intro u hu
            split_ifs at hu with h2
            · rcases List.mem_append.mp hu with h | h
              · exact hacc u h
              · simp only [List.mem_singleton] at h
                subst h
                rfl
            · exact hacc u hu
          · exact hacc t ht
    exact this _ _ [] (fun t ht => absurd ht (List.not_mem_nil t)) s hs
  · simp only [getActivityColor]
    have : activities.find? (fun a => a.id = aid) = none := by
      rw [List.find?_eq_none]
      intro a ha
      simpa using hdangling a ha
    rw [this]

/-- C9 witness: with known activities `[work]`, the block with activity id
"ghost" yields no visible segment and the colour lookup falls back. -/
theorem dangling_activity_block_invisible_witness :
    (visibleSegments [⟨"work", "Work", "#ff0000"⟩]
        (buildSegmentsFromBlocks
          [⟨"b1", "2025-01-01", 0, 10, "ghost", Layer.execute,
            BlockSource.drag, 0, 0⟩] 0)).filter
        (fun s => s.activityId = "ghost") = []
    ∧ getActivityColor "ghost" [⟨"work", "Work", "#ff0000"⟩] = "#888888" := by
  have h := dangling_activity_block_invisible
    [⟨"b1", "2025-01-01", 0, 10, "ghost", Layer.execute, BlockSource.drag, 0, 0⟩]
    0 [⟨"work", "Work", "#ff0000"⟩] "ghost" (by decide)
  exact ⟨h.1, h.2.2⟩

/-! ## Legacy grid migration (part_002 `migrateDayGridToBlocks`)

`migrateDayGridToBlocks` sorts the cell ids of a date's grid and scans them
in order.  A cell id is `dateISO|HH|c` with a zero-padded hour and a single
digit column, so for one date the lexicographic sort equals the numeric
order on `(hour, col)`; the scan input is therefore modelled as a list of
parsed cells that is strictly increasing in `(hour, col)` with `col < 6`.
JS truthiness on the `execute`/`overlay` fields is `Option` presence. -/

/-- A parsed grid cell as built by the migration scan (part_002 lines
79-88). -/
structure MigCell where
  hour : Int
  col : Int
  execute : Option String := none
  overlay : Option String := none
deriving DecidableEq, Repr

/-- `cell.hour * 60 + cell.col * 10`: the start minute of a cell. -/
def cellMin (c : MigCell) : Int := c.hour * 60 + c.col * 10

/-- An accumulated `{ startMin, endMin, activityId }` segment of the
migration scan. -/
structure RawSeg where
  startMin : Int
  endMin : Int
  activityId : String
deriving DecidableEq, Repr

/-- One iteration of the per-layer run accumulation (part_002 lines 94-117 /
145-168): continue the run on the same activity, flush and restart on a
different one, flush on a cell without the layer's activity. -/
def scanStep (get : MigCell → Option String) (st : Option (Int × String))
    (c : MigCell) : List RawSeg × Option (Int × String) :=
  match get c, st with
  | some a, some sa =>
      if sa.2 = a then ([], st)
      else ([⟨sa.1, cellMin c, sa.2⟩], some (cellMin c, a))
  | some a, none => ([], some (cellMin c, a))
  | none, some sa => ([⟨sa.1, cellMin c, sa.2⟩], none)
  | none, none => ([], none)

/-- The per-layer scan over the sorted cells, returning the flushed segments
and the still-open run. -/
def scanAux (get : MigCell → Option String) :
    List MigCell → Option (Int × String) → List RawSeg × Option (Int × String)
  | [], st => ([], st)
  | c :: rest, st =>
      let r := scanStep get st c
      let r' := scanAux get rest r.2
      (r.1 ++ r'.1, r'.2)

/-- One layer of `migrateDayGridToBlocks`: scan, then flush a still-open run
to the end of the grid's last cell (part_002 lines 118-125 / 169-176; an open
run implies the cell list is non-empty). -/
def migrateLayer (get : MigCell → Option String) (cells : List MigCell) :
    List RawSeg :=
  match (scanAux get cells none).2, cells.getLast? with
  | some sa, some lc =>
      (scanAux get cells none).1 ++ [⟨sa.1, lc.hour * 60 + (lc.col + 1) * 10, sa.2⟩]
  | _, _ => (scanAux get cells none).1

/-- `migrateDayGridToBlocks` for one date (part_002 lines 68-198): execute
segments then overlay segments, turned into blocks with `migrated_*` ids. -/
def migrateDayGridToBlocks (d : String) (now : Int) (cells : List MigCell) :
    List Block :=
  ((migrateLayer (fun c => c.execute) cells).map (fun seg =>
      ⟨"migrated_exec_" ++ d ++ "_" ++ toString seg.startMin, d,
       seg.startMin, seg.endMin, seg.activityId, Layer.execute,
       BlockSource.manual, now, now⟩))
    ++ ((migrateLayer (fun c => c.overlay) cells).map (fun seg =>
      ⟨"migrated_overlay_" ++ d ++ "_" ++ toString seg.startMin, d,
       seg.startMin, seg.endMin, seg.activityId, Layer.overlay,
       BlockSource.manual, now, now⟩))

/-! ## Block-to-grid projection (part_004 `blocksToGrid`)

`blocksToGrid` keys its output record by `makeCellId(dateISO, hour, col)`,
which is injective in `(hour, col)` for the values produced here, so the
output grid is modelled as a function on `(hour, col)` pairs. -/

/-- The `{ execute?, overlay? }` projection record of one output cell. -/
structure CellOut where
  execute : Option String := none
  overlay : Option String := none
deriving DecidableEq, Repr

/-- The projected grid: `(hour, col)` to cell. -/
def GridOut := Int × Int → CellOut

/-- The per-cell write of `blocksToGrid` (part_004 lines 133-137): execute
blocks set `execute`, overlay blocks set `overlay`, other layers set
nothing. -/
def writeCell (layer : Layer) (aid : String) (c : CellOut) : CellOut :=
  match layer with
  | Layer.execute => { c with execute := some aid }
  | Layer.overlay => { c with overlay := some aid }
  | Layer.plan => c

/-- Exact iteration count of the `while (currentMin < block.endMin)` loop of
`blocksToGrid`, which steps `currentMin` by 10. -/
def touchIters (cur endMin : Int) : Nat := ((endMin - cur + 9) / 10).toNat

/-- The `while` loop of `blocksToGrid` (part_004 lines 123-140), structurally
recursive on the exact iteration count; `touchLoop_eq` below recovers the
loop's defining equation. -/
def touchLoopF : Nat → GridOut → Layer → String → Int → Int → GridOut
  | 0, g, _, _, _, _ => g
  | fuel + 1, g, layer, aid, cur, endMin =>
    if cur < endMin then
      touchLoopF fuel
        (fun p => if p = (cur / 60, cur % 60 / 10) then writeCell layer aid (g p)
                  else g p)
        layer aid (cur + 10) endMin
    else g

/-- The `while` loop of `blocksToGrid` for one block. -/
def touchLoop (g : GridOut) (layer : Layer) (aid : String) (cur endMin : Int) :
    GridOut :=
  touchLoopF (touchIters cur endMin) g layer aid cur endMin

/-- `touchLoop` satisfies the loop's defining equation: write the cell
`(floor(cur/60), floor((cur mod 60)/10))` and advance by 10 minutes while
`cur < endMin`. -/
lemma touchLoop_eq (g : GridOut) (layer : Layer) (aid : String)
    (cur endMin : Int) :
    touchLoop g layer aid cur endMin
      = if cur < endMin then
          touchLoop
            (fun p => if p = (cur / 60, cur % 60 / 10)
                      then writeCell layer aid (g p) else g p)
            layer aid (cur + 10) endMin
        else g := by
  by_cases h : cur < endMin
  · have h1 : touchIters cur endMin = touchIters (cur + 10) endMin + 1 := by
      unfold touchIters
      omega
    rw [if_pos h]
    unfold touchLoop
    rw [h1]
    simp only [touchLoopF, if_pos h]
  · have h0 : touchIters cur endMin = 0 := by
      unfold touchIters
      omega
    rw [if_neg h]
    unfold touchLoop
    rw [h0]
    rfl

/-- The per-block step of `blocksToGrid` (the `continue` on a foreign date,
then the while loop). -/
def touchBlock (d : String) (g : GridOut) (b : Block) : GridOut :=
  if b.dateISO = d then touchLoop g b.layer b.activityId b.startMin b.endMin
  else g

/-- `blocksToGrid` from part_004 lines 117-144. -/
def blocksToGrid (blocks : List Block) (d : String) : GridOut :=
  blocks.foldl (touchBlock d) (fun _ => {})

/-- Pointwise effect of the block-painting loop on an in-range cell `(h, c)`
when the loop starts on a 10-minute boundary: the cell is written exactly
when its start minute lies in `[cur, endMin)`. -/
lemma touchLoop_apply (layer : Layer) (aid : String) :
    ∀ (n : Nat) (g : GridOut) (cur endMin h c : Int),
      (endMin - cur).toNat ≤ n →
      0 ≤ cur → cur % 10 = 0 → 0 ≤ h → 0 ≤ c → c < 6 →
      touchLoop g layer aid cur endMin (h, c)
        = if cur ≤ h * 60 + c * 10 ∧ h * 60 + c * 10 < endMin
          then writeCell layer aid (g (h, c)) else g (h, c) := by
  intro n
  induction n with
  | zero =>
      intro g cur endMin h c hn h0 h10 hh hc0 hc5
      rw [touchLoop_eq, if_neg (by omega)]
      rw [if_neg (by omega)]
  | succ n ih =>
      intro g cur endMin h c hn h0 h10 hh hc0 hc5
      rw [touchLoop_eq]
      by_cases hlt : cur < endMin
      · rw [if_pos hlt]
        rw [ih _ (cur + 10) endMin h c (by omega) (by omega) (by omega) hh hc0 hc5]
        by_cases hhit : ((h, c) : Int × Int) = (cur / 60, cur % 60 / 10)
        · have hm : h * 60 + c * 10 = cur := by
            have h1 : h = cur / 60 := congrArg Prod.fst hhit
            have h2 : c = cur % 60 / 10 := congrArg Prod.snd hhit
            omega
          rw [if_neg (show ¬ (cur + 10 ≤ h * 60 + c * 10 ∧ h * 60 + c * 10 < endMin) by omega)]
          rw [if_pos hhit, if_pos (show cur ≤ h * 60 + c * 10 ∧ h * 60 + c * 10 < endMin by omega)]
        · have hm : h * 60 + c * 10 ≠ cur := by
            intro heq
            exact hhit (by
              have h1 : h = cur / 60 := by omega
              have h2 : c = cur % 60 / 10 := by omega
              rw [h1, h2])
          rw [if_neg hhit]
          have hiff : (cur + 10 ≤ h * 60 + c * 10 ∧ h * 60 + c * 10 < endMin)
              ↔ (cur ≤ h * 60 + c * 10 ∧ h * 60 + c * 10 < endMin) := by
            omega
          rw [if_congr hiff rfl rfl]
      · rw [if_neg hlt, if_neg (by omega)]

/-- The painting loop of a block on layer `layer` leaves every field other
than `layer`'s untouched. -/
lemma touchLoopF_preserve (proj : CellOut → Option String) (layer : Layer)
    (aid : String)
    (hw : ∀ a cell, proj (writeCell layer a cell) = proj cell) :
    ∀ (fuel : Nat) (g : GridOut) (cur endMin : Int) (p : Int × Int),
      proj ((touchLoopF fuel g layer aid cur endMin) p) = proj (g p) := by
  intro fuel
  induction fuel with
  | zero => intro g cur endMin p; rfl
  | succ n ih =>
      intro g cur endMin p
      show proj ((if cur < endMin then _ else g) p) = proj (g p)
      split_ifs with h
      · rw [ih]
        by_cases hp : p = ((cur / 60 : Int), (cur % 60 / 10 : Int))
        · simp only [if_pos hp, hw]
        · simp only [if_neg hp]
      · rfl

/-- Does block `b` (date `d`, layer `layer`) cover minute `m`? -/
def coversB (d : String) (m : Int) (layer : Layer) (b : Block) : Bool :=
  decide (b.layer = layer ∧ b.dateISO = d ∧ b.startMin ≤ m ∧ m < b.endMin)

/-- Pointwise characterization of `blocksToGrid`'s fold: provided the
blocks of the projected layer are 10-minute aligned and pairwise disjoint,
the projected field of cell `(h, c)` is the activity of the (unique) covering
block, and the initial grid's value otherwise. -/
lemma foldl_touch_proj (proj : CellOut → Option String) (target : Layer)
    (hw1 : ∀ aid cell, proj (writeCell target aid cell) = some aid)
    (hw2 : ∀ layer aid cell, layer ≠ target →
      proj (writeCell layer aid cell) = proj cell)
    (d : String) (h c : Int) (hh : 0 ≤ h) (hc0 : 0 ≤ c) (hc5 : c < 6) :
    ∀ (blocks : List Block) (g : GridOut),
      (∀ b ∈ blocks, b.layer = target → b.dateISO = d →
        0 ≤ b.startMin ∧ b.startMin % 10 = 0) →
      List.Pairwise (fun b1 b2 => b1.layer = target → b2.layer = target →
        b1.dateISO = d → b2.dateISO = d →
        b1.endMin ≤ b2.startMin ∨ b2.endMin ≤ b1.startMin) blocks →
      proj ((blocks.foldl (touchBlock d) g) (h, c))
        = match blocks.find? (coversB d (h * 60 + c * 10) target) with
          | some b => some b.activityId
          | none => proj (g (h, c)) := by
  intro blocks
  induction blocks with
  | nil => intro g _ _; rfl
  | cons b rest ih =>
      intro g halign hpw
      have hpw' := (List.pairwise_cons.mp hpw).2
      have hbrest := (List.pairwise_cons.mp hpw).1
      have halign' : ∀ b' ∈ rest, b'.layer = target → b'.dateISO = d →
          0 ≤ b'.startMin ∧ b'.startMin % 10 = 0 :=
        fun b' hb' => halign b' (List.mem_cons_of_mem b hb')
      rw [List.foldl_cons]
      by_cases hcov : coversB d (h * 60 + c * 10) target b = true
      · have hc' := of_decide_eq_true hcov
        obtain ⟨hbl, hbd, hbs, hbe⟩ := hc'
        have hrestnone : rest.find? (coversB d (h * 60 + c * 10) target) = none := by
          rw [List.find?_eq_none]
          intro b' hb' hcov'
          have hc'' := of_decide_eq_true hcov'
          obtain ⟨hbl', hbd', hbs', hbe'⟩ := hc''
          have := hbrest b' hb' hbl hbl' hbd hbd'
          omega
        rw [List.find?_cons_of_pos _ hcov]
        rw [ih _ halign' hpw', hrestnone]
        have halb := halign b (List.mem_cons_self b rest) hbl hbd
        have htb : touchBlock d g b (h, c)
            = writeCell target b.activityId (g (h, c)) := by
          rw [touchBlock, if_pos hbd, hbl]
          rw [touchLoop_apply target b.activityId (b.endMin - b.startMin).toNat
            g b.startMin b.endMin h c le_rfl halb.1 halb.2 hh hc0 hc5]
          rw [if_pos ⟨hbs, hbe⟩]
        rw [htb, hw1]
      · rw [List.find?_cons_of_neg _ hcov]
        rw [ih _ halign' hpw']
        have hsame : proj (touchBlock d g b (h, c)) = proj (g (h, c)) := by
          by_cases hbd : b.dateISO = d
          · by_cases hbl : b.layer = target
            · have halb := halign b (List.mem_cons_self b rest) hbl hbd
              have hnc : ¬ (b.startMin ≤ h * 60 + c * 10 ∧
                  h * 60 + c * 10 < b.endMin) := by
                intro hcc
                exact hcov (decide_eq_true ⟨hbl, hbd, hcc.1, hcc.2⟩)
              rw [touchBlock, if_pos hbd, hbl]
              rw [touchLoop_apply target b.activityId (b.endMin - b.startMin).toNat
                g b.startMin b.endMin h c le_rfl halb.1 halb.2 hh hc0 hc5]
              rw [if_neg hnc]
            · rw [touchBlock, if_pos hbd]
              exact touchLoopF_preserve proj b.layer b.activityId
                (fun a cell => hw2 b.layer a cell hbl) _ g b.startMin b.endMin (h, c)
          · rw [touchBlock, if_neg hbd]
        cases hfind : rest.find? (coversB d (h * 60 + c * 10) target) with
        | none => simp only [hsame]
        | some b' => rfl

/-- The one-step state of the scan is the incoming state, cleared, or a run
freshly opened at the scanned cell. -/
lemma scanStep_state (get : MigCell → Option String)
    (st : Option (Int × String)) (c : MigCell) :
    (scanStep get st c).2 = st ∨ (scanStep get st c).2 = none
    ∨ ∃ a, (scanStep get st c).2 = some (cellMin c, a) := by
  rcases hgc : get c with _ | a <;> rcases st with _ | ⟨s, a0⟩
  · have h : scanStep get none c = ([], none) := by simp [scanStep, hgc]
    rw [h]
    exact Or.inl rfl
  · have h : scanStep get (some (s, a0)) c
        = ([⟨s, cellMin c, a0⟩], none) := by simp [scanStep, hgc]
    rw [h]
    exact Or.inr (Or.inl rfl)
  · have h : scanStep get none c = ([], some (cellMin c, a)) := by
      simp [scanStep, hgc]
    rw [h]
    exact Or.inr (Or.inr ⟨a, rfl⟩)
  · by_cases ha : a0 = a
    · have h : scanStep get (some (s, a0)) c = ([], some (s, a0)) := by
        simp [scanStep, hgc, ha]
      rw [h]
      exact Or.inl rfl
    · have h : scanStep get (some (s, a0)) c
          = ([⟨s, cellMin c, a0⟩], some (cellMin c, a)) := by
        simp [scanStep, hgc, ha]
      rw [h]
      exact Or.inr (Or.inr ⟨a, rfl⟩)

/-- The final state of the scan is empty, the initial state, or a run opened
at one of the scanned cells. -/
lemma scanAux_state_origin (get : MigCell → Option String) :
    ∀ (cells : List MigCell) (st : Option (Int × String)),
      (scanAux get cells st).2 = none ∨ (scanAux get cells st).2 = st
      ∨ ∃ c ∈ cells, ∃ a, (scanAux get cells st).2 = some (cellMin c, a) := by
  intro cells
  induction cells with
  | nil => intro st; exact Or.inr (Or.inl rfl)
  | cons c rest ih =>
      intro st
      have hrec : (scanAux get (c :: rest) st).2
          = (scanAux get rest (scanStep get st c).2).2 := rfl
      rw [hrec]
      rcases ih (scanStep get st c).2 with h | h | ⟨c', hc', a, h⟩
      · exact Or.inl h
      · rw [h]
        rcases scanStep_state get st c with h2 | h2 | ⟨a, h2⟩
        · exact Or.inr (Or.inl h2)
        · exact Or.inl h2
        · exact Or.inr (Or.inr ⟨c, List.mem_cons_self c rest, a, h2⟩)
      · exact Or.inr (Or.inr ⟨c', List.mem_cons_of_mem c hc', a, h⟩)

/-- Main structural facts of the scan: every flushed segment starts on an
in-grid 10-minute boundary (at the initial state's start or some scanned
cell's minute), is a non-empty span, ends no later than the final open run's
start, and the flushed segments are ordered and disjoint. -/
lemma scanAux_facts (get : MigCell → Option String) :
    ∀ (cells : List MigCell) (st : Option (Int × String)),
      List.Pairwise (fun c1 c2 => cellMin c1 < cellMin c2) cells →
      (∀ c ∈ cells, 0 ≤ cellMin c ∧ cellMin c % 10 = 0) →
      (∀ s a, st = some (s, a) →
        0 ≤ s ∧ s % 10 = 0 ∧ ∀ c ∈ cells, s < cellMin c) →
      (∀ seg ∈ (scanAux get cells st).1,
        0 ≤ seg.startMin ∧ seg.startMin % 10 = 0 ∧ seg.startMin < seg.endMin
        ∧ ((∃ s a, st = some (s, a) ∧ seg.startMin = s)
            ∨ ∃ c ∈ cells, seg.startMin = cellMin c)
        ∧ (∀ s a, (scanAux get cells st).2 = some (s, a) → seg.endMin ≤ s))
      ∧ List.Pairwise (fun s1 s2 => s1.endMin ≤ s2.startMin)
          (scanAux get cells st).1 := by
  intro cells
  induction cells with
  | nil =>
      intro st _ _ _
      exact ⟨fun seg hseg => absurd hseg (List.not_mem_nil seg), List.Pairwise.nil⟩
  | cons c rest ih =>
      intro st hpw hb hst
      have hpwr : List.Pairwise (fun c1 c2 => cellMin c1 < cellMin c2) rest :=
        (List.pairwise_cons.mp hpw).2
      have hcr : ∀ c' ∈ rest, cellMin c < cellMin c' :=
        (List.pairwise_cons.mp hpw).1
      have hbr : ∀ c' ∈ rest, 0 ≤ cellMin c' ∧ cellMin c' % 10 = 0 :=
        fun c' hc' => hb c' (List.mem_cons_of_mem c hc')
      have hbc : 0 ≤ cellMin c ∧ cellMin c % 10 = 0 :=
        hb c (List.mem_cons_self c rest)
      have hrec1 : ∀ st', (scanAux get (c :: rest) st').1
          = (scanStep get st' c).1
            ++ (scanAux get rest (scanStep get st' c).2).1 := fun _ => rfl
      have hrec2 : ∀ st', (scanAux get (c :: rest) st').2
          = (scanAux get rest (scanStep get st' c).2).2 := fun _ => rfl
      -- The five concrete outcomes of the step.
      rcases hgc : get c with _ | a <;> rcases st with _ | ⟨s, a0⟩
      -- get c = none, st = none
      · have hstep : scanStep get none c = ([], none) := by
          simp [scanStep, hgc]
        have ihr := ih none hpwr hbr (by intro s a h; cases h)
        constructor
        · intro seg hseg
          rw [hrec1 _, hstep] at hseg
          simp only [List.nil_append] at hseg
          have := ihr.1 seg hseg
          refine ⟨this.1, this.2.1, this.2.2.1, ?_, ?_⟩
          · rcases this.2.2.2.1 with ⟨s, a, h, -⟩ | ⟨c', hc', h⟩
            · cases h
            · exact Or.inr ⟨c', List.mem_cons_of_mem c hc', h⟩
          · intro s a h
            rw [hrec2 _, hstep] at h
            exact this.2.2.2.2 s a h
        · rw [hrec1 _, hstep]
          simpa using ihr.2
      -- get c = none, st = some (s, a0): flush, state cleared
      · have hstep : scanStep get (some (s, a0)) c
            = ([⟨s, cellMin c, a0⟩], none) := by
          simp [scanStep, hgc]
        have hsprop := hst s a0 rfl
        have ihr := ih none hpwr hbr (by intro s' a' h; cases h)
        have hflush : (0 : Int) ≤ s ∧ s % 10 = 0 ∧ s < cellMin c :=
          ⟨hsprop.1, hsprop.2.1, hsprop.2.2 c (List.mem_cons_self c rest)⟩
        constructor
        · intro seg hseg
          rw [hrec1 _, hstep] at hseg
          rcases List.mem_append.mp hseg with hseg | hseg
          · simp only [List.mem_singleton] at hseg
            subst hseg
            refine ⟨hflush.1, hflush.2.1, hflush.2.2, Or.inl ⟨s, a0, rfl, rfl⟩, ?_⟩
            intro s' a' h
            rw [hrec2 _, hstep] at h
            rcases scanAux_state_origin get rest none with h2 | h2 | ⟨c', hc', a2, h2⟩
            · rw [h] at h2; cases h2
            · rw [h] at h2; cases h2
            · rw [h] at h2
              injection h2 with h3
              injection h3 with h4 h5
              have := hcr c' hc'
              simp only [RawSeg.mk.injEq]
              omega
          · have := ihr.1 seg hseg
            refine ⟨this.1, this.2.1, this.2.2.1, ?_, ?_⟩
            · rcases this.2.2.2.1 with ⟨s', a', h, -⟩ | ⟨c', hc', h⟩
              · cases h
              · exact Or.inr ⟨c', List.mem_cons_of_mem c hc', h⟩
            · intro s' a' h
              rw [hrec2 _, hstep] at h
              exact this.2.2.2.2 s' a' h
        · rw [hrec1 _, hstep]
          refine List.pairwise_append.mpr ⟨List.pairwise_singleton _ _, ihr.2, ?_⟩
          intro x hx y hy
          simp only [List.mem_singleton] at hx
          subst hx
          have := ihr.1 y hy
          rcases this.2.2.2.1 with ⟨s', a', h, -⟩ | ⟨c', hc', h⟩
          · cases h
          · have := hcr c' hc'
            simp only
            omega
      -- get c = some a, st = none: open a run at c
      · have hstep : scanStep get none c = ([], some (cellMin c, a)) := by
          simp [scanStep, hgc]
        have ihr := ih (some (cellMin c, a)) hpwr hbr
          (by
            intro s' a' h
            injection h with h1
            injection h1 with h2 h3
            subst h2
            exact ⟨hbc.1, hbc.2, hcr⟩)
        constructor
        · intro seg hseg
          rw [hrec1 _, hstep] at hseg
          simp only [List.nil_append] at hseg
          have := ihr.1 seg hseg
          refine ⟨this.1, this.2.1, this.2.2.1, ?_, ?_⟩
          · rcases this.2.2.2.1 with ⟨s', a', h, h'⟩ | ⟨c', hc', h⟩
            · injection h with h1
              injection h1 with h2 h3
              exact Or.inr ⟨c, List.mem_cons_self c rest, by omega⟩
            · exact Or.inr ⟨c', List.mem_cons_of_mem c hc', h⟩
          · intro s' a' h
            rw [hrec2 _, hstep] at h
            exact this.2.2.2.2 s' a' h
        · rw [hrec1 _, hstep]
          simpa using ihr.2
      -- get c = some a, st = some (s, a0): continue or flush+restart
      · have hsprop := hst s a0 rfl
        by_cases ha : a0 = a
        · have hstep : scanStep get (some (s, a0)) c = ([], some (s, a0)) := by
            simp [scanStep, hgc, ha]
          have ihr := ih (some (s, a0)) hpwr hbr
            (by
              intro s' a' h
              injection h with h1
              injection h1 with h2 h3
              subst h2
              exact ⟨hsprop.1, hsprop.2.1,
                fun c' hc' => hsprop.2.2 c' (List.mem_cons_of_mem c hc')⟩)
          constructor
          · intro seg hseg
            rw [hrec1 _, hstep] at hseg
            simp only [List.nil_append] at hseg
            have := ihr.1 seg hseg
            refine ⟨this.1, this.2.1, this.2.2.1, ?_, ?_⟩
            · rcases this.2.2.2.1 with ⟨s', a', h, h'⟩ | ⟨c', hc', h⟩
              · injection h with h1
                injection h1 with h2 h3
                exact Or.inl ⟨s, a0, rfl, by omega⟩
              · exact Or.inr ⟨c', List.mem_cons_of_mem c hc', h⟩
            · intro s' a' h
              rw [hrec2 _, hstep] at h
              exact this.2.2.2.2 s' a' h
          · rw [hrec1 _, hstep]
            simpa using ihr.2
        · have hstep : scanStep get (some (s, a0)) c
              = ([⟨s, cellMin c, a0⟩], some (cellMin c, a)) := by
            simp [scanStep, hgc, ha]
          have hflush : (0 : Int) ≤ s ∧ s % 10 = 0 ∧ s < cellMin c :=
            ⟨hsprop.1, hsprop.2.1, hsprop.2.2 c (List.mem_cons_self c rest)⟩
          have ihr := ih (some (cellMin c, a)) hpwr hbr
            (by
              intro s' a' h
              injection h with h1
              injection h1 with h2 h3
              subst h2
              exact ⟨hbc.1, hbc.2, hcr⟩)
          have hreststart : ∀ seg ∈ (scanAux get rest (some (cellMin c, a))).1,
              cellMin c ≤ seg.startMin := by
            intro seg hseg
            have := (ihr.1 seg hseg).2.2.2.1
            rcases this with ⟨s', a', h, h'⟩ | ⟨c', hc', h⟩
            · injection h with h1
              injection h1 with h2 h3
              omega
            · have := hcr c' hc'
              omega
          constructor
          · intro seg hseg
            rw [hrec1 _, hstep] at hseg
            rcases List.mem_append.mp hseg with hseg | hseg
            · simp only [List.mem_singleton] at hseg
              subst hseg
              refine ⟨hflush.1, hflush.2.1, hflush.2.2,
                Or.inl ⟨s, a0, rfl, rfl⟩, ?_⟩
              intro s' a' h
              rw [hrec2 _, hstep] at h
              rcases scanAux_state_origin get rest (some (cellMin c, a)) with
                h2 | h2 | ⟨c', hc', a2, h2⟩
              · rw [h] at h2; cases h2
              · rw [h] at h2
                injection h2 with h3
                injection h3 with h4 h5
                simp only
                omega
              · rw [h] at h2
                injection h2 with h3
                injection h3 with h4 h5
                have := hcr c' hc'
                simp only
                omega
            · have := ihr.1 seg hseg
              refine ⟨this.1, this.2.1, this.2.2.1, ?_, ?_⟩
              · rcases this.2.2.2.1 with ⟨s', a', h, h'⟩ | ⟨c', hc', h⟩
                · injection h with h1
                  injection h1 with h2 h3
                  exact Or.inr ⟨c, List.mem_cons_self c rest, by omega⟩
                · exact Or.inr ⟨c', List.mem_cons_of_mem c hc', h⟩
              · intro s' a' h
                rw [hrec2 _, hstep] at h
                exact this.2.2.2.2 s' a' h
          · rw [hrec1 _, hstep]
            refine List.pairwise_append.mpr
              ⟨List.pairwise_singleton _ _, ihr.2, ?_⟩
            intro x hx y hy
            simp only [List.mem_singleton] at hx
            subst hx
            have := hreststart y hy
            simp only
            omega

/-- A run open at the start of the scan is either flushed as a segment whose
end is one of the scanned cells' minutes, or survives the whole scan. -/
lemma scanAux_run_out (get : MigCell → Option String) :
    ∀ (cells : List MigCell) (s : Int) (a : String),
      (∃ e, (⟨s, e, a⟩ : RawSeg) ∈ (scanAux get cells (some (s, a))).1
        ∧ ∃ c ∈ cells, e = cellMin c)
      ∨ (scanAux get cells (some (s, a))).2 = some (s, a) := by
  intro cells
  induction cells with
  | nil => intro s a; exact Or.inr rfl
  | cons c rest ih =>
      intro s a
      have hrec1 : ∀ st', (scanAux get (c :: rest) st').1
          = (scanStep get st' c).1
            ++ (scanAux get rest (scanStep get st' c).2).1 := fun _ => rfl
      have hrec2 : ∀ st', (scanAux get (c :: rest) st').2
          = (scanAux get rest (scanStep get st' c).2).2 := fun _ => rfl
      rcases hgc : get c with _ | a'
      · have hstep : scanStep get (some (s, a)) c
            = ([⟨s, cellMin c, a⟩], none) := by simp [scanStep, hgc]
        refine Or.inl ⟨cellMin c, ?_, c, List.mem_cons_self c rest, rfl⟩
        rw [hrec1 _, hstep]
        exact List.mem_append_left _ (List.mem_singleton.mpr rfl)
      · by_cases ha : a = a'
        · have hstep : scanStep get (some (s, a)) c = ([], some (s, a)) := by
            simp [scanStep, hgc, ha]
          rcases ih s a with ⟨e, hmem, c', hc', he⟩ | hst
          · refine Or.inl ⟨e, ?_, c', List.mem_cons_of_mem c hc', he⟩
            rw [hrec1 _, hstep]
            simpa using hmem
          · refine Or.inr ?_
            rw [hrec2 _, hstep]
            exact hst
        · have hstep : scanStep get (some (s, a)) c
              = ([⟨s, cellMin c, a⟩], some (cellMin c, a')) := by
            simp [scanStep, hgc]
            intro hcontra
            exact absurd hcontra ha
          refine Or.inl ⟨cellMin c, ?_, c, List.mem_cons_self c rest, rfl⟩
          rw [hrec1 _, hstep]
          exact List.mem_append_left _ (List.mem_singleton.mpr rfl)

/-- Every painted cell of the scanned list is covered, with the right
activity, by a flushed segment or by the still-open run. -/
lemma scanAux_cover (get : MigCell → Option String) :
    ∀ (cells : List MigCell) (st : Option (Int × String)),
      List.Pairwise (fun c1 c2 => cellMin c1 < cellMin c2) cells →
      (∀ s a, st = some (s, a) → ∀ c ∈ cells, s < cellMin c) →
      ∀ c ∈ cells, ∀ a, get c = some a →
        (∃ seg ∈ (scanAux get cells st).1,
          seg.activityId = a ∧ seg.startMin ≤ cellMin c ∧ cellMin c < seg.endMin)
        ∨ (∃ s, (scanAux get cells st).2 = some (s, a) ∧ s ≤ cellMin c) := by
  intro cells
  induction cells with
  | nil => intro st _ _ c hc; exact absurd hc (List.not_mem_nil c)
  | cons c0 rest ih =>
      intro st hpw hst c hc a hgca
      have hpwr : List.Pairwise (fun c1 c2 => cellMin c1 < cellMin c2) rest :=
        (List.pairwise_cons.mp hpw).2
      have hcr : ∀ c' ∈ rest, cellMin c0 < cellMin c' :=
        (List.pairwise_cons.mp hpw).1
      have hrec1 : ∀ st', (scanAux get (c0 :: rest) st').1
          = (scanStep get st' c0).1
            ++ (scanAux get rest (scanStep get st' c0).2).1 := fun _ => rfl
      have hrec2 : ∀ st', (scanAux get (c0 :: rest) st').2
          = (scanAux get rest (scanStep get st' c0).2).2 := fun _ => rfl
      rcases List.mem_cons.mp hc with hceq | hcrest
      · -- c is the head cell
        subst hceq
        -- after the step the open run has activity a and start ≤ cellMin c
        have hkey : ∃ s', (scanStep get st c).2 = some (s', a) ∧ s' ≤ cellMin c := by
          rcases st with _ | ⟨s, a0⟩
          · refine ⟨cellMin c, ?_, le_refl _⟩
            simp [scanStep, hgca]
          · by_cases ha : a0 = a
            · refine ⟨s, ?_, le_of_lt (hst s a0 rfl c (List.mem_cons_self c rest))⟩
              simp [scanStep, hgca, ha]
            · refine ⟨cellMin c, ?_, le_refl _⟩
              simp [scanStep, hgca, ha]
        obtain ⟨s', hs', hsle⟩ := hkey
        rcases scanAux_run_out get rest s' a with ⟨e, hmem, c', hc', he⟩ | hstF
        · refine Or.inl ⟨⟨s', e, a⟩, ?_, rfl, hsle, ?_⟩
          · rw [hrec1 _, hs']
            exact List.mem_append_right _ hmem
          · have := hcr c' hc'
            show cellMin c < e
            omega
        · refine Or.inr ⟨s', ?_, hsle⟩
          rw [hrec2 _, hs']
          exact hstF
      · -- c is in the tail
        have hstep := scanStep_state get st c0
        have hst' : ∀ s a', (scanStep get st c0).2 = some (s, a') →
            ∀ c' ∈ rest, s < cellMin c' := by
          intro s a' h c' hc'
          rcases hstep with h2 | h2 | ⟨a2, h2⟩
          · rw [h2] at h
            exact hst s a' h c' (List.mem_cons_of_mem c0 hc')
          · rw [h2] at h; cases h
          · rw [h2] at h
            injection h with h3
            injection h3 with h4 h5
            have := hcr c' hc'
            omega
        rcases ih (scanStep get st c0).2 hpwr hst' c hcrest a hgca with
          ⟨seg, hseg, hsa, hss, hse⟩ | ⟨s', hs', hsle⟩
        · refine Or.inl ⟨seg, ?_, hsa, hss, hse⟩
          rw [hrec1 _]
          exact List.mem_append_right _ hseg
        · refine Or.inr ⟨s', ?_, hsle⟩
          rw [hrec2 _]
          exact hs'

/-- No flushed segment, and no still-open run, covers the minute of a
scanned cell that has no activity in the scanned layer. -/
lemma scanAux_nocover (get : MigCell → Option String) :
    ∀ (cells : List MigCell) (st : Option (Int × String)),
      List.Pairwise (fun c1 c2 => cellMin c1 < cellMin c2) cells →
      (∀ c ∈ cells, 0 ≤ cellMin c ∧ cellMin c % 10 = 0) →
      (∀ s a, st = some (s, a) →
        0 ≤ s ∧ s % 10 = 0 ∧ ∀ c ∈ cells, s < cellMin c) →
      ∀ c ∈ cells, get c = none →
        (∀ seg ∈ (scanAux get cells st).1,
          ¬ (seg.startMin ≤ cellMin c ∧ cellMin c < seg.endMin))
        ∧ (∀ s a, (scanAux get cells st).2 = some (s, a) → cellMin c < s) := by
  intro cells
  induction cells with
  | nil => intro st _ _ _ c hc; exact absurd hc (List.not_mem_nil c)
  | cons c0 rest ih =>
      intro st hpw hb hst c hc hgcnone
      have hpwr : List.Pairwise (fun c1 c2 => cellMin c1 < cellMin c2) rest :=
        (List.pairwise_cons.mp hpw).2
      have hcr : ∀ c' ∈ rest, cellMin c0 < cellMin c' :=
        (List.pairwise_cons.mp hpw).1
      have hbr : ∀ c' ∈ rest, 0 ≤ cellMin c' ∧ cellMin c' % 10 = 0 :=
        fun c' hc' => hb c' (List.mem_cons_of_mem c0 hc')
      have hbc0 : 0 ≤ cellMin c0 ∧ cellMin c0 % 10 = 0 :=
        hb c0 (List.mem_cons_self c0 rest)
      have hrec1 : ∀ st', (scanAux get (c0 :: rest) st').1
          = (scanStep get st' c0).1
            ++ (scanAux get rest (scanStep get st' c0).2).1 := fun _ => rfl
      have hrec2 : ∀ st', (scanAux get (c0 :: rest) st').2
          = (scanAux get rest (scanStep get st' c0).2).2 := fun _ => rfl
      have hst' : ∀ s a', (scanStep get st c0).2 = some (s, a') →
          0 ≤ s ∧ s % 10 = 0 ∧ ∀ c' ∈ rest, s < cellMin c' := by
        intro s a' h
        rcases scanStep_state get st c0 with h2 | h2 | ⟨a2, h2⟩
        · rw [h2] at h
          obtain ⟨h3, h4, h5⟩ := hst s a' h
          exact ⟨h3, h4, fun c' hc' => h5 c' (List.mem_cons_of_mem c0 hc')⟩
        · rw [h2] at h; cases h
        · rw [h2] at h
          injection h with h3
          injection h3 with h4 h5
          subst h4
          exact ⟨hbc0.1, hbc0.2, hcr⟩
      have hrestfacts := scanAux_facts get rest (scanStep get st c0).2 hpwr hbr hst'
      rcases List.mem_cons.mp hc with hceq | hcrest
      · -- c is the head cell: the step flushes (if a run was open) at cellMin c
        subst hceq
        have hstepout : ∀ seg ∈ (scanStep get st c).1, seg.endMin = cellMin c := by
          intro seg hseg
          rcases st with _ | ⟨s, a0⟩
          · have : scanStep get none c = ([], none) := by simp [scanStep, hgcnone]
            rw [this] at hseg
            exact absurd hseg (List.not_mem_nil seg)
          · have : scanStep get (some (s, a0)) c = ([⟨s, cellMin c, a0⟩], none) := by
              simp [scanStep, hgcnone]
            rw [this] at hseg
            simp only [List.mem_singleton] at hseg
            subst hseg
            rfl
        have hstepnone : (scanStep get st c).2 = none ∨
            ∃ s a0, (scanStep get st c).2 = some (s, a0) ∧ st = some (s, a0)
              ∧ False := by
          rcases st with _ | ⟨s, a0⟩
          · have : scanStep get none c = ([], none) := by simp [scanStep, hgcnone]
            exact Or.inl (by rw [this])
          · have : scanStep get (some (s, a0)) c = ([⟨s, cellMin c, a0⟩], none) := by
              simp [scanStep, hgcnone]
            exact Or.inl (by rw [this])
        have hstnone : (scanStep get st c).2 = none := by
          rcases hstepnone with h | ⟨_, _, _, _, hf⟩
          · exact h
          · exact absurd hf not_false
        constructor
        · intro seg hseg
          rw [hrec1 _] at hseg
          rcases List.mem_append.mp hseg with hseg | hseg
          · have := hstepout seg hseg
            omega
          · -- segments of the tail start at tail cells, all after cellMin c
            have := (hrestfacts.1 seg hseg).2.2.2.1
            rcases this with ⟨s', a', h, h'⟩ | ⟨c', hc', h⟩
            · rw [hstnone] at h; cases h
            · have := hcr c' hc'
              have hvalid := (hrestfacts.1 seg hseg).2.2.1
              omega
        · intro s a h
          rw [hrec2 _] at h
          rcases scanAux_state_origin get rest (scanStep get st c).2 with
            h2 | h2 | ⟨c', hc', a2, h2⟩
          · rw [h] at h2; cases h2
          · rw [h] at h2
            rw [hstnone] at h2
            cases h2
          · rw [h] at h2
            injection h2 with h3
            injection h3 with h4 h5
            have := hcr c' hc'
            omega
      · -- c is in the tail
        have ihr := ih (scanStep get st c0).2 hpwr hbr hst' c hcrest hgcnone
        constructor
        · intro seg hseg
          rw [hrec1 _] at hseg
          rcases List.mem_append.mp hseg with hseg | hseg
          · -- a head flush ends at cellMin c0, before cellMin c
            have hend : seg.endMin = cellMin c0 ∨ (scanStep get st c0).1 = [] := by
              rcases st with _ | ⟨s, a0⟩
              · rcases hgc0 : get c0 with _ | a1
                · have : scanStep get none c0 = ([], none) := by
                    simp [scanStep, hgc0]
                  exact Or.inr (by rw [this])
                · have : scanStep get none c0 = ([], some (cellMin c0, a1)) := by
                    simp [scanStep, hgc0]
                  exact Or.inr (by rw [this])
              · rcases hgc0 : get c0 with _ | a1
                · have : scanStep get (some (s, a0)) c0
                      = ([⟨s, cellMin c0, a0⟩], none) := by
                    simp [scanStep, hgc0]
                  rw [this] at hseg
                  simp only [List.mem_singleton] at hseg
                  subst hseg
                  exact Or.inl rfl
                · by_cases ha : a0 = a1
                  · have : scanStep get (some (s, a0)) c0 = ([], some (s, a0)) := by
                      simp [scanStep, hgc0, ha]
                    exact Or.inr (by rw [this])
                  · have : scanStep get (some (s, a0)) c0
                        = ([⟨s, cellMin c0, a0⟩], some (cellMin c0, a1)) := by
                      simp [scanStep, hgc0, ha]
                    rw [this] at hseg
                    simp only [List.mem_singleton] at hseg
                    subst hseg
                    exact Or.inl rfl
            rcases hend with hend | hemp
            · have := hcr c hcrest
              omega
            · rw [hemp] at hseg
              exact absurd hseg (List.not_mem_nil seg)
          · exact ihr.1 seg hseg
        · intro s a h
          rw [hrec2 _] at h
          exact ihr.2 s a h

/-- Well-formedness of the migration's scan input: strictly increasing in
the `(hour, col)` order induced by sorting the cell id strings, with
in-range columns and non-negative hours. -/
def cellsWF (cells : List MigCell) : Prop :=
  List.Chain'
    (fun c1 c2 => c1.hour < c2.hour ∨ (c1.hour = c2.hour ∧ c1.col < c2.col))
    cells
  ∧ ∀ c ∈ cells, 0 ≤ c.hour ∧ 0 ≤ c.col ∧ c.col < 6

/-- On well-formed cell lists the start minutes are strictly increasing. -/
lemma cellsWF_pairwise_min :
    ∀ (cells : List MigCell), cellsWF cells →
      List.Pairwise (fun c1 c2 => cellMin c1 < cellMin c2) cells := by
  intro cells
  induction cells with
  | nil => intro _; exact List.Pairwise.nil
  | cons c rest ih =>
      rintro ⟨hchain, hbound⟩
      have ihr := ih ⟨hchain.tail,
        fun x hx => hbound x (List.mem_cons_of_mem c hx)⟩
      refine List.pairwise_cons.mpr ⟨?_, ihr⟩
      intro x hx
      cases rest with
      | nil => exact absurd hx (List.not_mem_nil x)
      | cons c' rest' =>
          have hb1 := hbound c (List.mem_cons_self c _)
          have hb2 := hbound c'
            (List.mem_cons_of_mem c (List.mem_cons_self c' rest'))
          have hcc' : cellMin c < cellMin c' := by
            rcases (List.chain'_cons.mp hchain).1 with h | ⟨h1, h2⟩ <;>
              (unfold cellMin; omega)
          rcases List.mem_cons.mp hx with rfl | hx'
          · exact hcc'
          · have := List.rel_of_pairwise_cons ihr hx'
            omega

/-- Every cell's minute is bounded by the last cell's minute. -/
lemma cellMin_le_last :
    ∀ (cells : List MigCell),
      List.Pairwise (fun c1 c2 => cellMin c1 < cellMin c2) cells →
      ∀ lc, cells.getLast? = some lc → ∀ c ∈ cells, cellMin c ≤ cellMin lc := by
  intro cells hpw lc hl c hc
  rcases List.eq_nil_or_concat cells with rfl | ⟨l, x, hcells⟩
  · cases hl
  · rw [List.concat_eq_append] at hcells
    subst hcells
    rw [List.getLast?_concat] at hl
    injection hl with hx
    rcases List.mem_append.mp hc with hc | hc
    · have h2 := (List.pairwise_append.mp hpw).2.2 c hc x
        (List.mem_singleton.mpr rfl)
      rw [← hx]
      omega
    · simp only [List.mem_singleton] at hc
      subst hc
      rw [hx]

/-- The full per-layer migration output: aligned non-empty spans, ordered
and disjoint, covering exactly the scanned cells that carry the layer's
activity. -/
lemma migrateLayer_facts (get : MigCell → Option String) (cells : List MigCell)
    (hpw : List.Pairwise (fun c1 c2 => cellMin c1 < cellMin c2) cells)
    (hb : ∀ c ∈ cells, 0 ≤ cellMin c ∧ cellMin c % 10 = 0) :
    (∀ seg ∈ migrateLayer get cells,
       0 ≤ seg.startMin ∧ seg.startMin % 10 = 0 ∧ seg.startMin < seg.endMin)
    ∧ List.Pairwise (fun s1 s2 => s1.endMin ≤ s2.startMin)
        (migrateLayer get cells)
    ∧ (∀ c ∈ cells, ∀ a, get c = some a →
        ∃ seg ∈ migrateLayer get cells,
          seg.activityId = a ∧ seg.startMin ≤ cellMin c ∧ cellMin c < seg.endMin)
    ∧ (∀ c ∈ cells, get c = none →
        ∀ seg ∈ migrateLayer get cells,
          ¬ (seg.startMin ≤ cellMin c ∧ cellMin c < seg.endMin)) := by
  have hstnil : ∀ s a, (none : Option (Int × String)) = some (s, a) →
      0 ≤ s ∧ s % 10 = 0 ∧ ∀ c ∈ cells, s < cellMin c := by
    intro s a h; cases h
  have hfacts := scanAux_facts get cells none hpw hb hstnil
  have hcover := scanAux_cover get cells none hpw (by intro s a h; cases h)
  have hnocover := scanAux_nocover get cells none hpw hb hstnil
  rcases hstF : (scanAux get cells none).2 with _ | ⟨s0, a0⟩
  · -- no open run at the end: no flush
    have hml : migrateLayer get cells = (scanAux get cells none).1 := by
      unfold migrateLayer
      rw [hstF]
    rw [hml]
    refine ⟨?_, hfacts.2, ?_, ?_⟩
    · intro seg hseg
      have := hfacts.1 seg hseg
      exact ⟨this.1, this.2.1, this.2.2.1⟩
    · intro c hc a hgc
      rcases hcover c hc a hgc with ⟨seg, hseg, h1, h2, h3⟩ | ⟨s, hs, -⟩
      · exact ⟨seg, hseg, h1, h2, h3⟩
      · rw [hstF] at hs; cases hs
    · intro c hc hgc
      exact (hnocover c hc hgc).1
  · -- an open run: cells is non-empty and the run flushes to the last cell
    rcases hlast : cells.getLast? with _ | lc
    · -- impossible: an open run implies a non-empty list
      exfalso
      rcases List.eq_nil_or_concat cells with rfl | ⟨l, x, hcells⟩
      · rw [show (scanAux get ([] : List MigCell) none).2 = none from rfl] at hstF
        cases hstF
      · rw [List.concat_eq_append] at hcells
        subst hcells
        rw [List.getLast?_concat] at hlast
        cases hlast
    · have hml : migrateLayer get cells
          = (scanAux get cells none).1
            ++ [⟨s0, lc.hour * 60 + (lc.col + 1) * 10, a0⟩] := by
        unfold migrateLayer
        rw [hstF, hlast]
      have hend : lc.hour * 60 + (lc.col + 1) * 10 = cellMin lc + 10 := by
        unfold cellMin; ring
      have hs0 : 0 ≤ s0 ∧ s0 % 10 = 0 ∧ s0 ≤ cellMin lc := by
        rcases scanAux_state_origin get cells none with h | h | ⟨c', hc', a', h⟩
        · rw [hstF] at h; cases h
        · rw [hstF] at h; cases h
        · rw [hstF] at h
          injection h with h1
          injection h1 with h2 h3
          have hb' := hb c' hc'
          have hle := cellMin_le_last cells hpw lc hlast c' hc'
          omega
      have hlcmem : lc ∈ cells := by
        rcases List.eq_nil_or_concat cells with rfl | ⟨l, x, hcells⟩
        · cases hlast
        · rw [List.concat_eq_append] at hcells
          subst hcells
          rw [List.getLast?_concat] at hlast
          injection hlast with hx
          subst hx
          exact List.mem_append_right _ (List.mem_singleton.mpr rfl)
      rw [hml]
      refine ⟨?_, ?_, ?_, ?_⟩
      · intro seg hseg
        rcases List.mem_append.mp hseg with hseg | hseg
        · have := hfacts.1 seg hseg
          exact ⟨this.1, this.2.1, this.2.2.1⟩
        · simp only [List.mem_singleton] at hseg
          subst hseg
          refine ⟨hs0.1, hs0.2.1, ?_⟩
          simp only
          omega
      · refine List.pairwise_append.mpr
          ⟨hfacts.2, List.pairwise_singleton _ _, ?_⟩
        intro x hx y hy
        simp only [List.mem_singleton] at hy
        subst hy
        have := (hfacts.1 x hx).2.2.2.2 s0 a0 hstF
        simpa using this
      · intro c hc a hgc
        rcases hcover c hc a hgc with ⟨seg, hseg, h1, h2, h3⟩ | ⟨s, hs, hsle⟩
        · exact ⟨seg, List.mem_append_left _ hseg, h1, h2, h3⟩
        · rw [hstF] at hs
          injection hs with h1
          injection h1 with h2 h3
          refine ⟨⟨s0, lc.hour * 60 + (lc.col + 1) * 10, a0⟩,
            List.mem_append_right _ (List.mem_singleton.mpr rfl), h3, ?_, ?_⟩
          · show s0 ≤ cellMin c
            omega
          · have hle := cellMin_le_last cells hpw lc hlast c hc
            show cellMin c < lc.hour * 60 + (lc.col + 1) * 10
            omega
      · intro c hc hgc
        intro seg hseg
        rcases List.mem_append.mp hseg with hseg | hseg
        · exact (hnocover c hc hgc).1 seg hseg
        · simp only [List.mem_singleton] at hseg
          subst hseg
          have := (hnocover c hc hgc).2 s0 a0 hstF
          simp only
          omega

/-- `find?` returns the unique element satisfying the predicate. -/
lemma find_eq_some_of_unique {α : Type} {p : α → Bool} :
    ∀ {l : List α} {x : α}, x ∈ l → p x = true →
      (∀ y ∈ l, p y = true → y = x) → l.find? p = some x := by
  intro l
  induction l with
  | nil => intro x hx; exact absurd hx (List.not_mem_nil x)
  | cons a l ih =>
      intro x hx hpx huniq
      by_cases hpa : p a = true
      · rw [List.find?_cons_of_pos _ hpa]
        exact congrArg some (huniq a (List.mem_cons_self a l) hpa)
      · rw [List.find?_cons_of_neg _ (by simpa using hpa)]
        rcases List.mem_cons.mp hx with rfl | hx'
        · exact absurd hpx hpa
        · exact ih hx' hpx (fun y hy hpy => huniq y (List.mem_cons_of_mem a hy) hpy)

/-- In an ordered disjoint family of non-empty segments a minute is covered
by at most one segment (up to value equality). -/
lemma unique_cover_of_pairwise (segs : List RawSeg)
    (hpw : List.Pairwise (fun s1 s2 => s1.endMin ≤ s2.startMin) segs)
    (m : Int) :
    ∀ s1 ∈ segs, ∀ s2 ∈ segs,
      s1.startMin ≤ m ∧ m < s1.endMin → s2.startMin ≤ m ∧ m < s2.endMin →
      s1 = s2 := by
  have hsym : List.Pairwise
      (fun s1 s2 => s1.endMin ≤ s2.startMin ∨ s2.endMin ≤ s1.startMin) segs :=
    hpw.imp (fun h => Or.inl h)
  intro s1 h1 s2 h2 hc1 hc2
  by_contra hne
  have := List.Pairwise.forall
    (fun a b h => h.symm) hsym h1 h2 hne
  omega

/-- C6 (amended). For every well-formed legacy day grid, migrating it to
blocks and projecting the blocks back to a grid reproduces the original
execute and overlay activity assignment on every cell PRESENT in the grid;
cells absent from the grid may acquire the surrounding run's activity (see
the counterexample), because the scan's run accumulator extends across
missing cells. -/
theorem migrate_project_roundtrip_present_cells :
    ∀ (d : String) (now : Int) (cells : List MigCell),
      cellsWF cells →
      ∀ c ∈ cells,
        (blocksToGrid (migrateDayGridToBlocks d now cells) d
            (c.hour, c.col)).execute = c.execute
        ∧ (blocksToGrid (migrateDayGridToBlocks d now cells) d
            (c.hour, c.col)).overlay = c.overlay := by
  intro d now cells hwf c hc
  have hpw := cellsWF_pairwise_min cells hwf
  have hbmin : ∀ c' ∈ cells, 0 ≤ cellMin c' ∧ cellMin c' % 10 = 0 := by
    intro c' hc'
    have := hwf.2 c' hc'
    unfold cellMin
    omega
  have hbc := hwf.2 c hc
  have hexecF := migrateLayer_facts (fun x => x.execute) cells hpw hbmin
  have hoverF := migrateLayer_facts (fun x => x.overlay) cells hpw hbmin
  constructor
  · -- execute field
    have halign : ∀ b ∈ migrateDayGridToBlocks d now cells,
        b.layer = Layer.execute → b.dateISO = d →
        0 ≤ b.startMin ∧ b.startMin % 10 = 0 := by
      intro b hb hbl _
      rcases List.mem_append.mp hb with hb | hb
      · obtain ⟨seg, hseg, rfl⟩ := List.mem_map.mp hb
        exact ⟨(hexecF.1 seg hseg).1, (hexecF.1 seg hseg).2.1⟩
      · obtain ⟨seg, hseg, rfl⟩ := List.mem_map.mp hb
        exact nomatch hbl
    have hpair : List.Pairwise (fun b1 b2 => b1.layer = Layer.execute →
        b2.layer = Layer.execute → b1.dateISO = d → b2.dateISO = d →
        b1.endMin ≤ b2.startMin ∨ b2.endMin ≤ b1.startMin)
        (migrateDayGridToBlocks d now cells) := by
      refine List.pairwise_append.mpr ⟨?_, ?_, ?_⟩
      · rw [List.pairwise_map]
        exact hexecF.2.1.imp (fun h => fun _ _ _ _ => Or.inl h)
      · rw [List.pairwise_map]
        exact hoverF.2.1.imp (fun _ => fun hl1 => nomatch hl1)
      · intro x hx y hy
        obtain ⟨s2, hs2, rfl⟩ := List.mem_map.mp hy
        intro _ hl2
        exact nomatch hl2
    have hFL : (blocksToGrid (migrateDayGridToBlocks d now cells) d
        (c.hour, c.col)).execute
        = match (migrateDayGridToBlocks d now cells).find?
            (coversB d (c.hour * 60 + c.col * 10) Layer.execute) with
          | some b => some b.activityId
          | none => ((fun (_ : Int × Int) => ({} : CellOut)) (c.hour, c.col)).execute :=
      foldl_touch_proj (fun cell => cell.execute) Layer.execute
        (fun _ _ => rfl)
        (by
          intro layer aid cell hl
          cases layer
          · rfl
          · exact absurd rfl hl
          · rfl)
        d c.hour c.col hbc.1 hbc.2.1 hbc.2.2
        (migrateDayGridToBlocks d now cells) (fun _ => {}) halign hpair
    rcases hgc : c.execute with _ | a
    · have hnone : (migrateDayGridToBlocks d now cells).find?
          (coversB d (c.hour * 60 + c.col * 10) Layer.execute) = none := by
        rw [List.find?_eq_none]
        intro y hy hycov
        have hyc := of_decide_eq_true hycov
        rcases List.mem_append.mp hy with hy | hy
        · obtain ⟨seg', hseg', rfl⟩ := List.mem_map.mp hy
          exact hexecF.2.2.2 c hc hgc seg' hseg' ⟨hyc.2.2.1, hyc.2.2.2⟩
        · obtain ⟨seg', hseg', rfl⟩ := List.mem_map.mp hy
          exact nomatch hyc.1
      rw [hFL, hnone]
    · obtain ⟨seg, hseg, hsa, hss, hse⟩ := hexecF.2.2.1 c hc a hgc
      have hxcov : coversB d (c.hour * 60 + c.col * 10) Layer.execute
          (⟨"migrated_exec_" ++ d ++ "_" ++ toString seg.startMin, d,
            seg.startMin, seg.endMin, seg.activityId, Layer.execute,
            BlockSource.manual, now, now⟩ : Block) = true :=
        decide_eq_true ⟨rfl, rfl, hss, hse⟩
      have hxmem : (⟨"migrated_exec_" ++ d ++ "_" ++ toString seg.startMin, d,
            seg.startMin, seg.endMin, seg.activityId, Layer.execute,
            BlockSource.manual, now, now⟩ : Block)
          ∈ migrateDayGridToBlocks d now cells :=
        List.mem_append_left _ (List.mem_map_of_mem _ hseg)
      have hfind := find_eq_some_of_unique hxmem hxcov (by
        intro y hy hycov
        have hyc := of_decide_eq_true hycov
        rcases List.mem_append.mp hy with hy | hy
        · obtain ⟨seg', hseg', rfl⟩ := List.mem_map.mp hy
          have heq := unique_cover_of_pairwise (migrateLayer (fun x => x.execute) cells)
            hexecF.2.1 (cellMin c) seg' hseg' seg hseg
            ⟨hyc.2.2.1, hyc.2.2.2⟩ ⟨hss, hse⟩
          rw [heq]
        · obtain ⟨seg', hseg', rfl⟩ := List.mem_map.mp hy
          exact nomatch hyc.1)
      rw [hFL, hfind]
      exact congrArg some hsa
  · -- overlay field (symmetric)
    have halign : ∀ b ∈ migrateDayGridToBlocks d now cells,
        b.layer = Layer.overlay → b.dateISO = d →
        0 ≤ b.startMin ∧ b.startMin % 10 = 0 := by
      intro b hb hbl _
      rcases List.mem_append.mp hb with hb | hb
      · obtain ⟨seg, hseg, rfl⟩ := List.mem_map.mp hb
        exact nomatch hbl
      · obtain ⟨seg, hseg, rfl⟩ := List.mem_map.mp hb
        exact ⟨(hoverF.1 seg hseg).1, (hoverF.1 seg hseg).2.1⟩
    have hpair : List.Pairwise (fun b1 b2 => b1.layer = Layer.overlay →
        b2.layer = Layer.overlay → b1.dateISO = d → b2.dateISO = d →
        b1.endMin ≤ b2.startMin ∨ b2.endMin ≤ b1.startMin)
        (migrateDayGridToBlocks d now cells) := by
      refine List.pairwise_append.mpr ⟨?_, ?_, ?_⟩
      · rw [List.pairwise_map]
        exact hexecF.2.1.imp (fun _ => fun hl1 => nomatch hl1)
      · rw [List.pairwise_map]
        exact hoverF.2.1.imp (fun h => fun _ _ _ _ => Or.inl h)
      · intro x hx y hy
        obtain ⟨s1, hs1, rfl⟩ := List.mem_map.mp hx
        intro hl1
        exact nomatch hl1
    have hFL : (blocksToGrid (migrateDayGridToBlocks d now cells) d
        (c.hour, c.col)).overlay
        = match (migrateDayGridToBlocks d now cells).find?
            (coversB d (c.hour * 60 + c.col * 10) Layer.overlay) with
          | some b => some b.activityId
          | none => ((fun (_ : Int × Int) => ({} : CellOut)) (c.hour, c.col)).overlay :=
      foldl_touch_proj (fun cell => cell.overlay) Layer.overlay
        (fun _ _ => rfl)
        (by
          intro layer aid cell hl
          cases layer
          · rfl
          · rfl
          · exact absurd rfl hl)
        d c.hour c.col hbc.1 hbc.2.1 hbc.2.2
        (migrateDayGridToBlocks d now cells) (fun _ => {}) halign hpair
    rcases hgc : c.overlay with _ | a
    · have hnone : (migrateDayGridToBlocks d now cells).find?
          (coversB d (c.hour * 60 + c.col * 10) Layer.overlay) = none := by
        rw [List.find?_eq_none]
        intro y hy hycov
        have hyc := of_decide_eq_true hycov
        rcases List.mem_append.mp hy with hy | hy
        · obtain ⟨seg', hseg', rfl⟩ := List.mem_map.mp hy
          exact nomatch hyc.1
        · obtain ⟨seg', hseg', rfl⟩ := List.mem_map.mp hy
          exact hoverF.2.2.2 c hc hgc seg' hseg' ⟨hyc.2.2.1, hyc.2.2.2⟩
      rw [hFL, hnone]
    · obtain ⟨seg, hseg, hsa, hss, hse⟩ := hoverF.2.2.1 c hc a hgc
      have hxcov : coversB d (c.hour * 60 + c.col * 10) Layer.overlay
          (⟨"migrated_overlay_" ++ d ++ "_" ++ toString seg.startMin, d,
            seg.startMin, seg.endMin, seg.activityId, Layer.overlay,
            BlockSource.manual, now, now⟩ : Block) = true :=
        decide_eq_true ⟨rfl, rfl, hss, hse⟩
      have hxmem : (⟨"migrated_overlay_" ++ d ++ "_" ++ toString seg.startMin, d,
            seg.startMin, seg.endMin, seg.activityId, Layer.overlay,
            BlockSource.manual, now, now⟩ : Block)
          ∈ migrateDayGridToBlocks d now cells :=
        List.mem_append_right _ (List.mem_map_of_mem _ hseg)
      have hfind := find_eq_some_of_unique hxmem hxcov (by
        intro y hy hycov
        have hyc := of_decide_eq_true hycov
        rcases List.mem_append.mp hy with hy | hy
        · obtain ⟨seg', hseg', rfl⟩ := List.mem_map.mp hy
          exact nomatch hyc.1
        · obtain ⟨seg', hseg', rfl⟩ := List.mem_map.mp hy
          have heq := unique_cover_of_pairwise (migrateLayer (fun x => x.overlay) cells)
            hoverF.2.1 (cellMin c) seg' hseg' seg hseg
            ⟨hyc.2.2.1, hyc.2.2.2⟩ ⟨hss, hse⟩
          rw [heq])
      rw [hFL, hfind]
      exact congrArg some hsa

/-- The C6 counterexample grid: cells (hour 0, col 0) and (hour 0, col 2)
both execute "A"; the cell (0, 1) between them is absent from the grid. -/
def gapCells : List MigCell :=
  [⟨0, 0, some "A", none⟩, ⟨0, 2, some "A", none⟩]

/-- C6 counterexample: the round trip does NOT reproduce the original
assignment exactly — the migration's run accumulator extends across the
missing cell (0, 1), producing the block `[0, 30)`, so the projected grid
paints execute "A" onto a cell that held no activity in the original grid. -/
theorem migrate_roundtrip_gap_counterexample :
    (blocksToGrid (migrateDayGridToBlocks "2025-01-01" 0 gapCells) "2025-01-01"
        (0, 1)).execute = some "A"
    ∧ (∀ c ∈ gapCells, ¬ (c.hour = 0 ∧ c.col = 1)) := by
  constructor
  · decide
  · decide

/-- C6 witness: a single painted cell (hour 6, col 0, execute "a",
overlay "b") survives the migrate-project round trip exactly. -/
theorem migrate_project_roundtrip_witness :
    (blocksToGrid
        (migrateDayGridToBlocks "2025-01-01" 0 [⟨6, 0, some "a", some "b"⟩])
        "2025-01-01" (6, 0)).execute = some "a"
    ∧ (blocksToGrid
        (migrateDayGridToBlocks "2025-01-01" 0 [⟨6, 0, some "a", some "b"⟩])
        "2025-01-01" (6, 0)).overlay = some "b" := by
  have h := migrate_project_roundtrip_present_cells "2025-01-01" 0
    [⟨6, 0, some "a", some "b"⟩]
    ⟨List.chain'_singleton _, by
      intro c hc
      rw [List.mem_singleton] at hc
      subst hc
      exact ⟨by decide, by decide, by decide⟩⟩
    ⟨6, 0, some "a", some "b"⟩ (List.mem_singleton.mpr rfl)
  exact ⟨h.1, h.2⟩

end Plan2
